import Mathlib

/-!
Verification of the `parallel` Go package (github.com/ORBAT/parallel).

The package runs a bounded number of functions concurrently:

* `Func.Do(count, maxParallel...)` spawns `count` goroutines, each running
  `fn.doOne(i, &wg, sema, &errs)`;
* `Funcs.Do(maxParallel...)` spawns one goroutine `doOp(i, &wg, fn, sema, &errs)`
  per function in the list;
* `Semaphore` is a buffered channel `chan struct{}` of capacity `max`;
* `Errors` is a lock-free error collector built on a CAS loop over a pointer
  to an immutable slice.

We embed the two goroutine bodies as a small-step interleaving machine over an
explicit shared state (semaphore channel occupancy, error-slice snapshot,
WaitGroup counter, per-goroutine control point), plus a ghost event log used to
state ordering properties.  The Go source of the two bodies is:

    func (fn Func) doOne(i int, wg *sync.WaitGroup, sema Semaphore, errs *Errors) {
        defer wg.Done()
        defer sema.AcquireRelease()            // NB: the returned release func is discarded,
        errs.Add(fn(i))                        // and AcquireRelease itself runs at return time
    }

    func doOp(i int, wg *sync.WaitGroup, fn Func, sema Semaphore, errs *Errors) {
        defer wg.Done()
        defer sema.AcquireRelease()()          // acquires NOW, defers the release
        errs.Add(fn(i))
    }

Go `defer f(args)` evaluates `f` and `args` at the defer statement and calls the
function at return, in LIFO order.  Hence:

* `doOp(i)`  : acquire; run `fn(i)`; `errs.Add(result)`; release; `wg.Done()`.
* `doOne(i)` : run `fn(i)`; `errs.Add(result)`; then at return first the deferred
  `sema.AcquireRelease()` call (an acquire whose release func is dropped), then
  `wg.Done()`.  The task body therefore runs before any acquire, and the token
  taken at exit is never returned.
-/

namespace Parallel

/-- Which goroutine body a dispatcher run uses: `Kind.one` is `Func.doOne`
(used by `Func.Do`), `Kind.op` is `doOp` (used by `Funcs.Do`). -/
inductive Kind : Type where
  | one : Kind
  | op : Kind
deriving DecidableEq

/-- Control point of one goroutine.  `ε` is the type of (non-nil) error values a
task can return; a task result is an `Option ε` (`none` = nil error).

The points follow the statements of `doOne`/`doOp` and of `Errors.Add`:

* `beforeAcquire` — `doOp` only: about to evaluate `sema.AcquireRelease()` at
  its defer statement (a blocking channel send);
* `taskReady` — about to call `fn(i)`;
* `taskRunning` — `fn(i)` is executing;
* `addReady` — `fn(i)` returned; about to run `errs.Add(result)` (which returns
  at once on a nil error, else enters the load/CAS loop);
* `addLoaded snap` — inside `Errors.Add`: `atomic.LoadPointer` read the snapshot
  `snap`; about to attempt the CAS;
* `afterAdd` — `errs.Add` returned; next comes the goroutine's first deferred
  call (`doOp`: the release func; `doOne`: the discarded-result
  `sema.AcquireRelease()` call, i.e. an acquire);
* `beforeDone` — about to run the deferred `wg.Done()`;
* `finished` — goroutine exited. -/
inductive Phase (ε : Type) : Type where
  | beforeAcquire : Phase ε
  | taskReady : Phase ε
  | taskRunning : Phase ε
  | addReady : Phase ε
  | addLoaded (snap : List (Option ε)) : Phase ε
  | afterAdd : Phase ε
  | beforeDone : Phase ε
  | finished : Phase ε
deriving DecidableEq

/-- Ghost event kinds recorded by the machine: semaphore acquire (a send on the
channel completing), task invocation (with the `idx` argument passed to the
task), task return, a successful CAS in `Errors.Add` (the error is recorded),
semaphore release (a receive completing), and `wg.Done()`. -/
inductive EKind : Type where
  | acquire : EKind
  | invoke (arg : Nat) : EKind
  | ret : EKind
  | record : EKind
  | release : EKind
  | signal : EKind
deriving DecidableEq

/-- A ghost log entry: which goroutine (`gid`) did what (`ek`). -/
structure Event : Type where
  gid : Nat
  ek : EKind
deriving DecidableEq

/-- Shared state of one `Func.Do` / `Funcs.Do` run.

* `sema` — number of occupied slots of the semaphore channel
  (`Semaphore = chan struct{}` of capacity `max`; a send blocks unless
  `sema < max`, a receive blocks unless `0 < sema`);
* `errs` — the slice `*p.errs` of the `Errors` collector (`[]` stands for the
  initial nil pointer: the first `Add` installs an empty slice via its
  initializing CAS, which is observationally the same);
* `wg` — the `sync.WaitGroup` counter (`wg.Add(count)` before the spawns);
* `gs` — control point of goroutine `j` at position `j`; goroutine `j` runs the
  task with index argument `j` (`go fn.doOne(i, ...)` / `go doOp(i, ...)` with
  `i` the loop index);
* `log` — ghost event history. -/
structure DoState (ε : Type) : Type where
  sema : Nat
  errs : List (Option ε)
  wg : Nat
  gs : List (Phase ε)
  log : List Event
deriving DecidableEq

variable {ε : Type}

/-- Initial state of a dispatcher run with `count` units of work: `wg.Add(count)`
has run, the semaphore channel is empty, no errors are collected, and every
goroutine sits at the first statement of its body (`doOne` starts at the task
call; `doOp` starts at the acquire of its second defer statement). -/
def initState (k : Kind) (count : Nat) : DoState ε :=
  { sema := 0
    errs := []
    wg := count
    gs := List.replicate count (match k with
      | Kind.one => Phase.taskReady
      | Kind.op => Phase.beforeAcquire)
    log := [] }

/-- One interleaving step of a dispatcher run: some goroutine `j` executes its
next atomic action.  `max` is the semaphore capacity, `tval j` the (pure) result
of running the task of unit `j` with argument `j` (`none` = nil error). -/
inductive Step (k : Kind) (max : Nat) (tval : Nat → Option ε) :
    DoState ε → DoState ε → Prop where
  /-- `doOp` defer statement: `sema.AcquireRelease()` sends on the channel. -/
  | opAcquire (s : DoState ε) (j : Nat)
      (hg : s.gs[j]? = some Phase.beforeAcquire) (hk : k = Kind.op)
      (hs : s.sema < max) :
      Step k max tval s
        { s with sema := s.sema + 1, gs := s.gs.set j Phase.taskReady,
                 log := s.log ++ [⟨j, EKind.acquire⟩] }
  /-- The task `fn` is called with argument `j`. -/
  | startTask (s : DoState ε) (j : Nat)
      (hg : s.gs[j]? = some Phase.taskReady) :
      Step k max tval s
        { s with gs := s.gs.set j Phase.taskRunning,
                 log := s.log ++ [⟨j, EKind.invoke j⟩] }
  /-- The task returns (its value is the pure `tval j`). -/
  | endTask (s : DoState ε) (j : Nat)
      (hg : s.gs[j]? = some Phase.taskRunning) :
      Step k max tval s
        { s with gs := s.gs.set j Phase.addReady,
                 log := s.log ++ [⟨j, EKind.ret⟩] }
  /-- `Errors.Add(nil)` returns immediately (`if err == nil { return }`). -/
  | addSkip (s : DoState ε) (j : Nat)
      (hg : s.gs[j]? = some Phase.addReady) (he : tval j = none) :
      Step k max tval s { s with gs := s.gs.set j Phase.afterAdd }
  /-- `Errors.Add`: `atomic.LoadPointer` reads the current slice. -/
  | addLoad (s : DoState ε) (j : Nat) (v : ε)
      (hg : s.gs[j]? = some Phase.addReady) (he : tval j = some v) :
      Step k max tval s { s with gs := s.gs.set j (Phase.addLoaded s.errs) }
  /-- `Errors.Add`: the CAS succeeds (the slice is still the loaded snapshot)
  and installs `append(append(make(...), err), *current...)`, i.e. the error
  prepended to the snapshot. -/
  | addCasOk (s : DoState ε) (j : Nat) (v : ε) (snap : List (Option ε))
      (hg : s.gs[j]? = some (Phase.addLoaded snap)) (he : tval j = some v)
      (hc : s.errs = snap) :
      Step k max tval s
        { s with errs := some v :: snap, gs := s.gs.set j Phase.afterAdd,
                 log := s.log ++ [⟨j, EKind.record⟩] }
  /-- `Errors.Add`: the CAS fails (someone swapped first) — `goto retry`. -/
  | addCasFail (s : DoState ε) (j : Nat) (snap : List (Option ε))
      (hg : s.gs[j]? = some (Phase.addLoaded snap)) (hc : s.errs ≠ snap) :
      Step k max tval s { s with gs := s.gs.set j Phase.addReady }
  /-- `doOp` deferred release func runs: a receive on the channel. -/
  | opRelease (s : DoState ε) (j : Nat)
      (hg : s.gs[j]? = some Phase.afterAdd) (hk : k = Kind.op)
      (hs : 0 < s.sema) :
      Step k max tval s
        { s with sema := s.sema - 1, gs := s.gs.set j Phase.beforeDone,
                 log := s.log ++ [⟨j, EKind.release⟩] }
  /-- `doOne` deferred `sema.AcquireRelease()` runs at return time: a send on
  the channel; the returned release func is discarded. -/
  | oneAcquire (s : DoState ε) (j : Nat)
      (hg : s.gs[j]? = some Phase.afterAdd) (hk : k = Kind.one)
      (hs : s.sema < max) :
      Step k max tval s
        { s with sema := s.sema + 1, gs := s.gs.set j Phase.beforeDone,
                 log := s.log ++ [⟨j, EKind.acquire⟩] }
  /-- The deferred `wg.Done()` runs. -/
  | done (s : DoState ε) (j : Nat)
      (hg : s.gs[j]? = some Phase.beforeDone) :
      Step k max tval s
        { s with wg := s.wg - 1, gs := s.gs.set j Phase.finished,
                 log := s.log ++ [⟨j, EKind.signal⟩] }

/-- States reachable from `s` by interleaved goroutine steps. -/
def Reach (k : Kind) (max : Nat) (tval : Nat → Option ε) :
    DoState ε → DoState ε → Prop :=
  Relation.ReflTransGen (Step k max tval)

/-- What the dispatcher call observes: `wg.Wait()` returns only once the counter
is zero, and then `Do` returns `errs.Err()` (here: the raw collected slice; see
`errsErr` below for the `Err()` value).  `none` means `Do` has not returned. -/
def doResult (s : DoState ε) : Option (List (Option ε)) :=
  if s.wg = 0 then some s.errs else none

section Executable

variable [DecidableEq ε]

/-- Executable version of `Step` for goroutine `j`: `none` when goroutine `j`
has no enabled action (it is blocked on the semaphore channel, or has exited,
or does not exist). -/
def stepG (k : Kind) (max : Nat) (tval : Nat → Option ε) (j : Nat)
    (s : DoState ε) : Option (DoState ε) :=
  match s.gs[j]? with
  | none => none
  | some ph =>
    match ph with
    | Phase.beforeAcquire =>
      match k with
      | Kind.op =>
        if s.sema < max then
          some { s with sema := s.sema + 1, gs := s.gs.set j Phase.taskReady,
                        log := s.log ++ [⟨j, EKind.acquire⟩] }
        else none
      | Kind.one => none
    | Phase.taskReady =>
      some { s with gs := s.gs.set j Phase.taskRunning,
                    log := s.log ++ [⟨j, EKind.invoke j⟩] }
    | Phase.taskRunning =>
      some { s with gs := s.gs.set j Phase.addReady,
                    log := s.log ++ [⟨j, EKind.ret⟩] }
    | Phase.addReady =>
      match tval j with
      | none => some { s with gs := s.gs.set j Phase.afterAdd }
      | some _ => some { s with gs := s.gs.set j (Phase.addLoaded s.errs) }
    | Phase.addLoaded snap =>
      match tval j with
      | none => none
      | some v =>
        if s.errs = snap then
          some { s with errs := some v :: snap, gs := s.gs.set j Phase.afterAdd,
                        log := s.log ++ [⟨j, EKind.record⟩] }
        else some { s with gs := s.gs.set j Phase.addReady }
    | Phase.afterAdd =>
      match k with
      | Kind.op =>
        if 0 < s.sema then
          some { s with sema := s.sema - 1, gs := s.gs.set j Phase.beforeDone,
                        log := s.log ++ [⟨j, EKind.release⟩] }
        else none
      | Kind.one =>
        if s.sema < max then
          some { s with sema := s.sema + 1, gs := s.gs.set j Phase.beforeDone,
                        log := s.log ++ [⟨j, EKind.acquire⟩] }
        else none
    | Phase.beforeDone =>
      some { s with wg := s.wg - 1, gs := s.gs.set j Phase.finished,
                    log := s.log ++ [⟨j, EKind.signal⟩] }
    | Phase.finished => none

theorem stepG_sound {k : Kind} {max : Nat} {tval : Nat → Option ε} {j : Nat}
    {s t : DoState ε} (h : stepG k max tval j s = some t) :
    Step k max tval s t := by
  unfold stepG at h
  cases hg : s.gs[j]? with
  | none => rw [hg] at h; exact absurd h (by simp)
  | some ph =>
    rw [hg] at h
    cases ph with
    | beforeAcquire =>
      cases hk : k with
      | op =>
        rw [hk] at h
        by_cases hs : s.sema < max
        · rw [if_pos hs] at h
          cases h
          exact Step.opAcquire s j hg rfl hs
        · rw [if_neg hs] at h; exact absurd h (by simp)
      | one => rw [hk] at h; exact absurd h (by simp)
    | taskReady =>
      cases h
      exact Step.startTask s j hg
    | taskRunning =>
      cases h
      exact Step.endTask s j hg
    | addReady =>
      cases he : tval j with
      | none =>
        rw [he] at h
        cases h
        exact Step.addSkip s j hg he
      | some v =>
        rw [he] at h
        cases h
        exact Step.addLoad s j v hg he
    | addLoaded snap =>
      cases he : tval j with
      | none => rw [he] at h; exact absurd h (by simp)
      | some v =>
        rw [he] at h
        dsimp only at h
        by_cases hc : s.errs = snap
        · rw [if_pos hc] at h
          cases h
          exact Step.addCasOk s j v snap hg he hc
        · rw [if_neg hc] at h
          cases h
          exact Step.addCasFail s j snap hg hc
    | afterAdd =>
      cases hk : k with
      | op =>
        rw [hk] at h
        dsimp only at h
        by_cases hs : 0 < s.sema
        · rw [if_pos hs] at h
          cases h
          exact Step.opRelease s j hg rfl hs
        · rw [if_neg hs] at h; exact absurd h (by simp)
      | one =>
        rw [hk] at h
        dsimp only at h
        by_cases hs : s.sema < max
        · rw [if_pos hs] at h
          cases h
          exact Step.oneAcquire s j hg rfl hs
        · rw [if_neg hs] at h; exact absurd h (by simp)
    | beforeDone =>
      cases h
      exact Step.done s j hg
    | finished => exact absurd h (by simp)

/-- Run a concrete schedule: at each step, the listed goroutine moves. -/
def runSched (k : Kind) (max : Nat) (tval : Nat → Option ε) :
    List Nat → DoState ε → Option (DoState ε)
  | [], s => some s
  | j :: rest, s =>
    match stepG k max tval j s with
    | none => none
    | some t => runSched k max tval rest t

theorem reach_of_runSched {k : Kind} {max : Nat} {tval : Nat → Option ε} :
    ∀ (l : List Nat) {s t : DoState ε}, runSched k max tval l s = some t →
      Reach k max tval s t := by
  intro l
  induction l with
  | nil =>
    intro s t h
    cases h
    exact Relation.ReflTransGen.refl
  | cons j rest ih =>
    intro s t h
    unfold runSched at h
    cases hs : stepG k max tval j s with
    | none => rw [hs] at h; exact absurd h (by simp)
    | some u =>
      rw [hs] at h
      exact Relation.ReflTransGen.head (stepG_sound hs) (ih h)

end Executable

section Invariants

/-! ### Counting helpers and the run invariant -/

/-- Control points at which the goroutine currently occupies a slot of the
semaphore channel.  A `doOp` goroutine sends on entry (`beforeAcquire` →
`taskReady`) and receives when its deferred release runs (`afterAdd` →
`beforeDone`).  A `doOne` goroutine only ever sends — at return time
(`afterAdd` → `beforeDone`) — and never receives, so from `beforeDone` on the
slot stays occupied forever. -/
def holdsTok (k : Kind) (ph : Phase ε) : Bool :=
  match k, ph with
  | Kind.op, Phase.taskReady => true
  | Kind.op, Phase.taskRunning => true
  | Kind.op, Phase.addReady => true
  | Kind.op, Phase.addLoaded _ => true
  | Kind.op, Phase.afterAdd => true
  | Kind.one, Phase.beforeDone => true
  | Kind.one, Phase.finished => true
  | _, _ => false

/-- Control points at which the goroutine has not yet run `wg.Done()`. -/
def unfin : Phase ε → Bool
  | Phase.finished => false
  | _ => true

/-- Control points past the return of `errs.Add` (the goroutine's error, if
any, has been recorded). -/
def pastAdd : Phase ε → Bool
  | Phase.afterAdd => true
  | Phase.beforeDone => true
  | Phase.finished => true
  | _ => false

/-- The task body is executing right now. -/
def isRun : Phase ε → Bool
  | Phase.taskRunning => true
  | _ => false

/-- What goroutine `j` at control point `ph` has contributed to the shared
error slice: its task's non-nil error once `errs.Add` has returned, else
nothing. -/
def mcontrib (tval : Nat → Option ε) (j : Nat) (ph : Phase ε) :
    Multiset (Option ε) :=
  if pastAdd ph then
    match tval j with
    | some v => {some v}
    | none => 0
  else 0

/-- Total contribution of goroutines `i, i+1, ...` with control points `l`. -/
def contribs (tval : Nat → Option ε) : Nat → List (Phase ε) → Multiset (Option ε)
  | _, [] => 0
  | i, ph :: rest => mcontrib tval i ph + contribs tval (i + 1) rest

/-- The subsequence of ghost events belonging to goroutine `j`. -/
def logOf (j : Nat) (log : List Event) : List Event :=
  log.filter (fun ev => ev.gid == j)

/-- The record event of goroutine `j`, present iff its task's result is
non-nil. -/
def recEvents (j : Nat) (e : Option ε) : List Event :=
  match e with
  | some _ => [⟨j, EKind.record⟩]
  | none => []

/-- The exact event history goroutine `j` has produced by the time it is at
control point `ph` — the per-goroutine statement order of `doOp` resp.
`doOne`. -/
def phaseEvents (k : Kind) (tval : Nat → Option ε) (j : Nat) : Phase ε → List Event :=
  match k with
  | Kind.op => fun ph =>
    match ph with
    | Phase.beforeAcquire => []
    | Phase.taskReady => [⟨j, EKind.acquire⟩]
    | Phase.taskRunning => [⟨j, EKind.acquire⟩, ⟨j, EKind.invoke j⟩]
    | Phase.addReady => [⟨j, EKind.acquire⟩, ⟨j, EKind.invoke j⟩, ⟨j, EKind.ret⟩]
    | Phase.addLoaded _ => [⟨j, EKind.acquire⟩, ⟨j, EKind.invoke j⟩, ⟨j, EKind.ret⟩]
    | Phase.afterAdd =>
        [⟨j, EKind.acquire⟩, ⟨j, EKind.invoke j⟩, ⟨j, EKind.ret⟩] ++ recEvents j (tval j)
    | Phase.beforeDone =>
        [⟨j, EKind.acquire⟩, ⟨j, EKind.invoke j⟩, ⟨j, EKind.ret⟩] ++ recEvents j (tval j)
          ++ [⟨j, EKind.release⟩]
    | Phase.finished =>
        [⟨j, EKind.acquire⟩, ⟨j, EKind.invoke j⟩, ⟨j, EKind.ret⟩] ++ recEvents j (tval j)
          ++ [⟨j, EKind.release⟩, ⟨j, EKind.signal⟩]
  | Kind.one => fun ph =>
    match ph with
    | Phase.beforeAcquire => []
    | Phase.taskReady => []
    | Phase.taskRunning => [⟨j, EKind.invoke j⟩]
    | Phase.addReady => [⟨j, EKind.invoke j⟩, ⟨j, EKind.ret⟩]
    | Phase.addLoaded _ => [⟨j, EKind.invoke j⟩, ⟨j, EKind.ret⟩]
    | Phase.afterAdd => [⟨j, EKind.invoke j⟩, ⟨j, EKind.ret⟩] ++ recEvents j (tval j)
    | Phase.beforeDone =>
        [⟨j, EKind.invoke j⟩, ⟨j, EKind.ret⟩] ++ recEvents j (tval j)
          ++ [⟨j, EKind.acquire⟩]
    | Phase.finished =>
        [⟨j, EKind.invoke j⟩, ⟨j, EKind.ret⟩] ++ recEvents j (tval j)
          ++ [⟨j, EKind.acquire⟩, ⟨j, EKind.signal⟩]

/-- `phaseEvents` lifted to a possibly-absent goroutine. -/
def phaseLog (k : Kind) (tval : Nat → Option ε) (j : Nat) : Option (Phase ε) → List Event
  | some ph => phaseEvents k tval j ph
  | none => []

theorem countP_set_add {α : Type} (p : α → Bool) :
    ∀ (l : List α) (j : Nat) {b : α}, l[j]? = some b → ∀ (a : α),
      (l.set j a).countP p + (if p b then 1 else 0)
        = l.countP p + (if p a then 1 else 0) := by
  intro l
  induction l with
  | nil => intro j b hb a; simp at hb
  | cons x xs ih =>
    intro j b hb a
    cases j with
    | zero =>
      simp only [List.getElem?_cons_zero, Option.some.injEq] at hb
      subst hb
      simp only [List.set_cons_zero, List.countP_cons]
      omega
    | succ j =>
      simp only [List.getElem?_cons_succ] at hb
      simp only [List.set_cons_succ, List.countP_cons]
      have := ih j hb a
      omega

theorem contribs_set_add (tval : Nat → Option ε) :
    ∀ (l : List (Phase ε)) (i j : Nat) {b : Phase ε}, l[j]? = some b →
      ∀ (a : Phase ε),
      contribs tval i (l.set j a) + mcontrib tval (i + j) b
        = contribs tval i l + mcontrib tval (i + j) a := by
  intro l
  induction l with
  | nil => intro i j b hb a; simp at hb
  | cons x xs ih =>
    intro i j b hb a
    cases j with
    | zero =>
      simp only [List.getElem?_cons_zero, Option.some.injEq] at hb
      subst hb
      simp only [List.set_cons_zero, contribs, Nat.add_zero]
      abel
    | succ j =>
      simp only [List.getElem?_cons_succ] at hb
      simp only [List.set_cons_succ, contribs]
      have h := ih (i + 1) j hb a
      have hidx : i + 1 + j = i + (j + 1) := by omega
      rw [hidx] at h
      rw [add_assoc, h, add_assoc]

theorem logOf_append (j : Nat) (l1 l2 : List Event) :
    logOf j (l1 ++ l2) = logOf j l1 ++ logOf j l2 := by
  unfold logOf
  exact List.filter_append l1 l2

theorem logOf_single_self (j : Nat) (e : EKind) :
    logOf j [⟨j, e⟩] = [⟨j, e⟩] := by
  simp [logOf]

theorem logOf_single_ne {i j : Nat} (h : i ≠ j) (e : EKind) :
    logOf j [⟨i, e⟩] = [] := by
  simp [logOf, h]

theorem contribs_no_pastAdd (tval : Nat → Option ε) :
    ∀ (l : List (Phase ε)) (i : Nat), (∀ ph ∈ l, pastAdd ph = false) →
      contribs tval i l = 0 := by
  intro l
  induction l with
  | nil => intro i _; rfl
  | cons x xs ih =>
    intro i h
    have hx := h x (List.mem_cons_self x xs)
    simp only [contribs, mcontrib, hx, if_false, ih (i + 1)
      (fun ph hm => h ph (List.mem_cons_of_mem x hm)), add_zero]
    rfl

/-- The run invariant tying the shared state to the goroutine control points.

* `len` — one goroutine per unit of work;
* `sem`  — channel occupancy equals the number of token-holding goroutines;
* `semMax` — a buffered channel never holds more than its capacity;
* `wgEq` — the WaitGroup counter counts the goroutines that have not signaled;
* `errsEq` — the shared slice holds exactly the recorded non-nil task results;
* `snapOk` — a loaded CAS snapshot is a suffix of the current slice (the slice
  only ever grows by prepending), and only goroutines with a non-nil result
  enter the CAS loop;
* `noBA` — `doOne` goroutines never sit at `doOp`'s initial acquire;
* `logEq` — each goroutine's ghost events are exactly determined by its control
  point. -/
structure Inv (k : Kind) (max : Nat) (tval : Nat → Option ε) (n : Nat)
    (s : DoState ε) : Prop where
  len : s.gs.length = n
  sem : s.sema = s.gs.countP (holdsTok k)
  semMax : s.sema ≤ max
  wgEq : s.wg = s.gs.countP unfin
  errsEq : (s.errs : Multiset (Option ε)) = contribs tval 0 s.gs
  snapOk : ∀ (j : Nat) (sp : List (Option ε)), s.gs[j]? = some (Phase.addLoaded sp) →
    sp <:+ s.errs ∧ (tval j).isSome
  noBA : k = Kind.one → ∀ (j : Nat), s.gs[j]? ≠ some Phase.beforeAcquire
  logEq : ∀ (j : Nat), logOf j s.log = phaseLog k tval j s.gs[j]?

theorem inv_init (k : Kind) (max : Nat) (tval : Nat → Option ε) (count : Nat) :
    Inv k max tval count (initState (ε := ε) k count) := by
  constructor
  case len => simp [initState]
  case sem =>
    simp only [initState, List.countP_replicate]
    cases k <;> simp [holdsTok]
  case semMax => simp [initState]
  case wgEq =>
    simp only [initState, List.countP_replicate]
    cases k <;> simp [unfin]
  case errsEq =>
    simp only [initState]
    rw [contribs_no_pastAdd]
    · rfl
    · intro ph hm
      rw [List.eq_of_mem_replicate hm]
      cases k <;> rfl
  case snapOk =>
    intro j sp h
    simp only [initState, List.getElem?_replicate] at h
    split at h
    · cases k <;> simp_all
    · simp at h
  case noBA =>
    intro hk j
    subst hk
    simp only [initState, List.getElem?_replicate]
    split <;> simp
  case logEq =>
    intro j
    simp only [initState, List.getElem?_replicate, logOf, List.filter_nil]
    split
    · cases k <;> rfl
    · rfl

theorem logOf_all_gid {j : Nat} :
    ∀ {evs : List Event}, (∀ ev ∈ evs, ev.gid = j) → logOf j evs = evs := by
  intro evs h
  exact List.filter_eq_self.mpr (fun ev hm => by simp [h ev hm])

theorem logOf_none_gid {i j : Nat} (hij : i ≠ j) :
    ∀ {evs : List Event}, (∀ ev ∈ evs, ev.gid = j) → logOf i evs = [] := by
  intro evs h
  exact List.filter_eq_nil_iff.mpr (fun ev hm => by simp [h ev hm, hij.symm])

/-- One-step update of the per-goroutine log invariant: goroutine `j` moves to
control point `phNew`, appending its events `evs`. -/
theorem logEq_step {k : Kind} {tval : Nat → Option ε} {s : DoState ε}
    (hlog : ∀ (i : Nat), logOf i s.log = phaseLog k tval i s.gs[i]?)
    {j : Nat} {phNew : Phase ε} (hlt : j < s.gs.length)
    {evs : List Event}
    (hnew : phaseEvents k tval j phNew = phaseLog k tval j s.gs[j]? ++ evs)
    (hevs : ∀ ev ∈ evs, ev.gid = j) :
    ∀ (i : Nat), logOf i (s.log ++ evs) = phaseLog k tval i (s.gs.set j phNew)[i]? := by
  intro i
  rw [logOf_append]
  by_cases hij : i = j
  · subst hij
    rw [List.getElem?_set_self hlt]
    show logOf i s.log ++ logOf i evs = phaseEvents k tval i phNew
    rw [hnew, hlog i, logOf_all_gid hevs]
  · rw [List.getElem?_set_ne (fun h => hij h.symm), logOf_none_gid hij hevs,
      List.append_nil, hlog i]

/-- `logEq_step` for steps that record no event (the log is unchanged). -/
theorem logEq_step_nil {k : Kind} {tval : Nat → Option ε} {s : DoState ε}
    (hlog : ∀ (i : Nat), logOf i s.log = phaseLog k tval i s.gs[i]?)
    {j : Nat} {phNew : Phase ε} (hlt : j < s.gs.length)
    (hnew : phaseEvents k tval j phNew = phaseLog k tval j s.gs[j]?) :
    ∀ (i : Nat), logOf i s.log = phaseLog k tval i (s.gs.set j phNew)[i]? := by
  intro i
  by_cases hij : i = j
  · subst hij
    rw [List.getElem?_set_self hlt]
    show logOf i s.log = phaseEvents k tval i phNew
    rw [hnew, hlog i]
  · rw [List.getElem?_set_ne (fun h => hij h.symm), hlog i]

/-- One-step update of the `noBA` invariant (no transition targets
`beforeAcquire`). -/
theorem noBA_step {k : Kind} {s : DoState ε} {j : Nat} {phNew : Phase ε}
    (h : k = Kind.one → ∀ (i : Nat), s.gs[i]? ≠ some Phase.beforeAcquire)
    (hnew : phNew ≠ Phase.beforeAcquire) :
    k = Kind.one → ∀ (i : Nat), (s.gs.set j phNew)[i]? ≠ some Phase.beforeAcquire := by
  intro hk i
  rw [List.getElem?_set]
  split
  · split
    · simp [hnew]
    · simp
  · exact h hk i

/-- One-step update of the `snapOk` invariant when the moving goroutine leaves
(or stays out of) the CAS loop and the slice is unchanged. -/
theorem snapOk_step {tval : Nat → Option ε} {s : DoState ε} {j : Nat}
    {phNew : Phase ε}
    (h : ∀ (i : Nat) (sp : List (Option ε)), s.gs[i]? = some (Phase.addLoaded sp) →
      sp <:+ s.errs ∧ (tval i).isSome)
    (hnew : ∀ sp, phNew ≠ Phase.addLoaded sp) :
    ∀ (i : Nat) (sp : List (Option ε)),
      (s.gs.set j phNew)[i]? = some (Phase.addLoaded sp) →
        sp <:+ s.errs ∧ (tval i).isSome := by
  intro i sp hi
  rw [List.getElem?_set] at hi
  split at hi
  · split at hi
    · rename_i hji hlen
      cases hi
      exact absurd rfl (hnew sp)
    · exact absurd hi (by simp)
  · exact h i sp hi

theorem lt_of_getElem?_eq_some {α : Type} {l : List α} {j : Nat} {a : α}
    (h : l[j]? = some a) : j < l.length := by
  rcases List.getElem?_eq_some_iff.mp h with ⟨hlt, -⟩
  exact hlt

/-- Every interleaving step preserves the run invariant. -/
theorem inv_step {k : Kind} {max : Nat} {tval : Nat → Option ε} {n : Nat}
    {s t : DoState ε} (inv : Inv k max tval n s) (hst : Step k max tval s t) :
    Inv k max tval n t := by
  cases hst with
  | opAcquire j hg hk hs =>
    subst hk
    have hlt := lt_of_getElem?_eq_some hg
    have hsem := countP_set_add (holdsTok Kind.op) s.gs j hg Phase.taskReady
    have hwg := countP_set_add unfin s.gs j hg Phase.taskReady
    have herr := contribs_set_add tval s.gs 0 j hg Phase.taskReady
    refine ⟨?_, ?_, ?_, ?_, ?_, ?_, ?_, ?_⟩ <;> dsimp only
    · rw [List.length_set]; exact inv.len
    · have := inv.sem
      simp [holdsTok] at hsem
      omega
    · exact hs
    · have := inv.wgEq
      simp [unfin] at hwg
      omega
    · have herr2 : contribs tval 0 (s.gs.set j Phase.taskReady) = contribs tval 0 s.gs := by
        have h1 : mcontrib tval (0 + j) (Phase.beforeAcquire : Phase ε) = 0 := rfl
        have h2 : mcontrib tval (0 + j) (Phase.taskReady : Phase ε) = 0 := rfl
        rw [h1, h2, add_zero, add_zero] at herr
        exact herr
      rw [herr2]
      exact inv.errsEq
    · exact snapOk_step inv.snapOk (fun sp h => by cases h)
    · exact noBA_step inv.noBA (by intro h; cases h)
    · exact logEq_step inv.logEq hlt
        (by rw [hg]; rfl) (by intro ev hm; simp at hm; subst hm; rfl)
  | startTask j hg =>
    have hlt := lt_of_getElem?_eq_some hg
    have hsem := countP_set_add (holdsTok k) s.gs j hg Phase.taskRunning
    have hwg := countP_set_add unfin s.gs j hg Phase.taskRunning
    have herr := contribs_set_add tval s.gs 0 j hg Phase.taskRunning
    refine ⟨?_, ?_, ?_, ?_, ?_, ?_, ?_, ?_⟩ <;> dsimp only
    · rw [List.length_set]; exact inv.len
    · have := inv.sem
      cases k <;> simp [holdsTok] at hsem <;> omega
    · exact inv.semMax
    · have := inv.wgEq
      simp [unfin] at hwg
      omega
    · have herr2 : contribs tval 0 (s.gs.set j Phase.taskRunning) = contribs tval 0 s.gs := by
        have h1 : mcontrib tval (0 + j) (Phase.taskReady : Phase ε) = 0 := rfl
        have h2 : mcontrib tval (0 + j) (Phase.taskRunning : Phase ε) = 0 := rfl
        rw [h1, h2, add_zero, add_zero] at herr
        exact herr
      rw [herr2]
      exact inv.errsEq
    · exact snapOk_step inv.snapOk (fun sp h => by cases h)
    · exact noBA_step inv.noBA (by intro h; cases h)
    · exact logEq_step inv.logEq hlt
        (by rw [hg]; cases k <;> rfl) (by intro ev hm; simp at hm; subst hm; rfl)
  | endTask j hg =>
    have hlt := lt_of_getElem?_eq_some hg
    have hsem := countP_set_add (holdsTok k) s.gs j hg Phase.addReady
    have hwg := countP_set_add unfin s.gs j hg Phase.addReady
    have herr := contribs_set_add tval s.gs 0 j hg Phase.addReady
    refine ⟨?_, ?_, ?_, ?_, ?_, ?_, ?_, ?_⟩ <;> dsimp only
    · rw [List.length_set]; exact inv.len
    · have := inv.sem
      cases k <;> simp [holdsTok] at hsem <;> omega
    · exact inv.semMax
    · have := inv.wgEq
      simp [unfin] at hwg
      omega
    · have herr2 : contribs tval 0 (s.gs.set j Phase.addReady) = contribs tval 0 s.gs := by
        have h1 : mcontrib tval (0 + j) (Phase.taskRunning : Phase ε) = 0 := rfl
        have h2 : mcontrib tval (0 + j) (Phase.addReady : Phase ε) = 0 := rfl
        rw [h1, h2, add_zero, add_zero] at herr
        exact herr
      rw [herr2]
      exact inv.errsEq
    · exact snapOk_step inv.snapOk (fun sp h => by cases h)
    · exact noBA_step inv.noBA (by intro h; cases h)
    · exact logEq_step inv.logEq hlt
        (by rw [hg]; cases k <;> rfl) (by intro ev hm; simp at hm; subst hm; rfl)
  | addSkip j hg he =>
    have hlt := lt_of_getElem?_eq_some hg
    have hsem := countP_set_add (holdsTok k) s.gs j hg Phase.afterAdd
    have hwg := countP_set_add unfin s.gs j hg Phase.afterAdd
    have herr := contribs_set_add tval s.gs 0 j hg Phase.afterAdd
    refine ⟨?_, ?_, ?_, ?_, ?_, ?_, ?_, ?_⟩ <;> dsimp only
    · rw [List.length_set]; exact inv.len
    · have := inv.sem
      cases k <;> simp [holdsTok] at hsem <;> omega
    · exact inv.semMax
    · have := inv.wgEq
      simp [unfin] at hwg
      omega
    · have herr2 : contribs tval 0 (s.gs.set j Phase.afterAdd) = contribs tval 0 s.gs := by
        have h1 : mcontrib tval (0 + j) (Phase.addReady : Phase ε) = 0 := rfl
        have h2 : mcontrib tval (0 + j) (Phase.afterAdd : Phase ε) = 0 := by
          simp [mcontrib, he]
        rw [h1, h2, add_zero, add_zero] at herr
        exact herr
      rw [herr2]
      exact inv.errsEq
    · exact snapOk_step inv.snapOk (fun sp h => by cases h)
    · exact noBA_step inv.noBA (by intro h; cases h)
    · refine logEq_step_nil inv.logEq hlt ?_
      rw [hg]
      cases k <;> simp [phaseLog, phaseEvents, recEvents, he]
  | addLoad j v hg he =>
    have hlt := lt_of_getElem?_eq_some hg
    have hsem := countP_set_add (holdsTok k) s.gs j hg (Phase.addLoaded s.errs)
    have hwg := countP_set_add unfin s.gs j hg (Phase.addLoaded s.errs)
    have herr := contribs_set_add tval s.gs 0 j hg (Phase.addLoaded s.errs)
    refine ⟨?_, ?_, ?_, ?_, ?_, ?_, ?_, ?_⟩ <;> dsimp only
    · rw [List.length_set]; exact inv.len
    · have := inv.sem
      cases k <;> simp [holdsTok] at hsem <;> omega
    · exact inv.semMax
    · have := inv.wgEq
      simp [unfin] at hwg
      omega
    · have herr2 : contribs tval 0 (s.gs.set j (Phase.addLoaded s.errs)) = contribs tval 0 s.gs := by
        have h1 : mcontrib tval (0 + j) (Phase.addReady : Phase ε) = 0 := rfl
        have h2 : mcontrib tval (0 + j) (Phase.addLoaded s.errs) = 0 := rfl
        rw [h1, h2, add_zero, add_zero] at herr
        exact herr
      rw [herr2]
      exact inv.errsEq
    · intro i sp hi
      by_cases hij : j = i
      · subst hij
        rw [List.getElem?_set_self hlt] at hi
        cases hi
        exact ⟨List.suffix_refl _, by rw [he]; rfl⟩
      · rw [List.getElem?_set_ne hij] at hi
        exact inv.snapOk i sp hi
    · exact noBA_step inv.noBA (by intro h; cases h)
    · refine logEq_step_nil inv.logEq hlt ?_
      rw [hg]
      cases k <;> rfl
  | addCasOk j v snap hg he hc =>
    have hlt := lt_of_getElem?_eq_some hg
    have hsem := countP_set_add (holdsTok k) s.gs j hg Phase.afterAdd
    have hwg := countP_set_add unfin s.gs j hg Phase.afterAdd
    have herr := contribs_set_add tval s.gs 0 j hg Phase.afterAdd
    refine ⟨?_, ?_, ?_, ?_, ?_, ?_, ?_, ?_⟩ <;> dsimp only
    · rw [List.length_set]; exact inv.len
    · have := inv.sem
      cases k <;> simp [holdsTok] at hsem <;> omega
    · exact inv.semMax
    · have := inv.wgEq
      simp [unfin] at hwg
      omega
    · have herr2 : contribs tval 0 (s.gs.set j Phase.afterAdd)
          = contribs tval 0 s.gs + {some v} := by
        have h1 : mcontrib tval (0 + j) (Phase.addLoaded snap) = 0 := rfl
        have h2 : mcontrib tval (0 + j) (Phase.afterAdd : Phase ε) = {some v} := by
          simp [mcontrib, pastAdd, he]
        rw [h1, h2, add_zero] at herr
        exact herr
      rw [herr2, ← inv.errsEq, hc]
      show ((some v :: snap : List (Option ε)) : Multiset (Option ε)) = ↑snap + {some v}
      rw [← Multiset.cons_coe, ← Multiset.singleton_add, add_comm]
    · intro i sp hi
      by_cases hij : j = i
      · subst hij
        rw [List.getElem?_set_self hlt] at hi
        exact absurd hi (by simp)
      · rw [List.getElem?_set_ne hij] at hi
        rcases inv.snapOk i sp hi with ⟨hsuf, hsome⟩
        rw [hc] at hsuf
        exact ⟨hsuf.trans (List.suffix_cons _ _), hsome⟩
    · exact noBA_step inv.noBA (by intro h; cases h)
    · refine logEq_step inv.logEq hlt ?_
        (by intro ev hm; simp at hm; subst hm; rfl)
      rw [hg]
      cases k <;> simp [phaseLog, phaseEvents, recEvents, he]
  | addCasFail j snap hg hc =>
    have hlt := lt_of_getElem?_eq_some hg
    have hsem := countP_set_add (holdsTok k) s.gs j hg Phase.addReady
    have hwg := countP_set_add unfin s.gs j hg Phase.addReady
    have herr := contribs_set_add tval s.gs 0 j hg Phase.addReady
    refine ⟨?_, ?_, ?_, ?_, ?_, ?_, ?_, ?_⟩ <;> dsimp only
    · rw [List.length_set]; exact inv.len
    · have := inv.sem
      cases k <;> simp [holdsTok] at hsem <;> omega
    · exact inv.semMax
    · have := inv.wgEq
      simp [unfin] at hwg
      omega
    · have herr2 : contribs tval 0 (s.gs.set j Phase.addReady) = contribs tval 0 s.gs := by
        have h1 : mcontrib tval (0 + j) (Phase.addLoaded snap) = 0 := rfl
        have h2 : mcontrib tval (0 + j) (Phase.addReady : Phase ε) = 0 := rfl
        rw [h1, h2, add_zero, add_zero] at herr
        exact herr
      rw [herr2]
      exact inv.errsEq
    · exact snapOk_step inv.snapOk (fun sp h => by cases h)
    · exact noBA_step inv.noBA (by intro h; cases h)
    · refine logEq_step_nil inv.logEq hlt ?_
      rw [hg]
      cases k <;> rfl
  | opRelease j hg hk hs =>
    subst hk
    have hlt := lt_of_getElem?_eq_some hg
    have hsem := countP_set_add (holdsTok Kind.op) s.gs j hg Phase.beforeDone
    have hwg := countP_set_add unfin s.gs j hg Phase.beforeDone
    have herr := contribs_set_add tval s.gs 0 j hg Phase.beforeDone
    refine ⟨?_, ?_, ?_, ?_, ?_, ?_, ?_, ?_⟩ <;> dsimp only
    · rw [List.length_set]; exact inv.len
    · have := inv.sem
      simp [holdsTok] at hsem
      omega
    · have := inv.semMax
      omega
    · have := inv.wgEq
      simp [unfin] at hwg
      omega
    · have herr2 : contribs tval 0 (s.gs.set j Phase.beforeDone) = contribs tval 0 s.gs :=
        add_right_cancel herr
      rw [herr2]
      exact inv.errsEq
    · exact snapOk_step inv.snapOk (fun sp h => by cases h)
    · exact noBA_step inv.noBA (by intro h; cases h)
    · exact logEq_step inv.logEq hlt
        (by rw [hg]; simp [phaseLog, phaseEvents]) (by intro ev hm; simp at hm; subst hm; rfl)
  | oneAcquire j hg hk hs =>
    subst hk
    have hlt := lt_of_getElem?_eq_some hg
    have hsem := countP_set_add (holdsTok Kind.one) s.gs j hg Phase.beforeDone
    have hwg := countP_set_add unfin s.gs j hg Phase.beforeDone
    have herr := contribs_set_add tval s.gs 0 j hg Phase.beforeDone
    refine ⟨?_, ?_, ?_, ?_, ?_, ?_, ?_, ?_⟩ <;> dsimp only
    · rw [List.length_set]; exact inv.len
    · have := inv.sem
      simp [holdsTok] at hsem
      omega
    · exact hs
    · have := inv.wgEq
      simp [unfin] at hwg
      omega
    · have herr2 : contribs tval 0 (s.gs.set j Phase.beforeDone) = contribs tval 0 s.gs :=
        add_right_cancel herr
      rw [herr2]
      exact inv.errsEq
    · exact snapOk_step inv.snapOk (fun sp h => by cases h)
    · exact noBA_step inv.noBA (by intro h; cases h)
    · exact logEq_step inv.logEq hlt
        (by rw [hg]; simp [phaseLog, phaseEvents]) (by intro ev hm; simp at hm; subst hm; rfl)
  | done j hg =>
    have hlt := lt_of_getElem?_eq_some hg
    have hsem := countP_set_add (holdsTok k) s.gs j hg Phase.finished
    have hwg := countP_set_add unfin s.gs j hg Phase.finished
    have herr := contribs_set_add tval s.gs 0 j hg Phase.finished
    refine ⟨?_, ?_, ?_, ?_, ?_, ?_, ?_, ?_⟩ <;> dsimp only
    · rw [List.length_set]; exact inv.len
    · have := inv.sem
      cases k <;> simp [holdsTok] at hsem <;> omega
    · exact inv.semMax
    · have := inv.wgEq
      simp [unfin] at hwg
      omega
    · have herr2 : contribs tval 0 (s.gs.set j Phase.finished) = contribs tval 0 s.gs :=
        add_right_cancel herr
      rw [herr2]
      exact inv.errsEq
    · exact snapOk_step inv.snapOk (fun sp h => by cases h)
    · exact noBA_step inv.noBA (by intro h; cases h)
    · exact logEq_step inv.logEq hlt
        (by rw [hg]; cases k <;> simp [phaseLog, phaseEvents]) (by intro ev hm; simp at hm; subst hm; rfl)

/-- The run invariant holds in every reachable state. -/
theorem inv_reach {k : Kind} {max : Nat} {tval : Nat → Option ε} {count : Nat}
    {s : DoState ε} (h : Reach k max tval (initState k count) s) :
    Inv k max tval count s := by
  induction h with
  | refl => exact inv_init k max tval count
  | tail _ hstep ih => exact inv_step ih hstep

theorem mcontrib_card_le (tval : Nat → Option ε) (j : Nat) (ph : Phase ε) :
    (mcontrib tval j ph).card ≤ 1 := by
  unfold mcontrib
  split
  · cases tval j <;> simp
  · simp

theorem contribs_card_le (tval : Nat → Option ε) :
    ∀ (l : List (Phase ε)) (i : Nat), (contribs tval i l).card ≤ l.length := by
  intro l
  induction l with
  | nil => intro i; simp [contribs]
  | cons x xs ih =>
    intro i
    have h1 := mcontrib_card_le tval i x
    have h2 := ih (i + 1)
    simp only [contribs, Multiset.card_add, List.length_cons]
    omega

/-- In any invariant state the collected slice has at most one entry per unit
of work. -/
theorem errs_length_le {k : Kind} {max : Nat} {tval : Nat → Option ε} {n : Nat}
    {s : DoState ε} (inv : Inv k max tval n s) : s.errs.length ≤ n := by
  have h := congrArg Multiset.card inv.errsEq
  rw [Multiset.coe_card] at h
  have h2 := contribs_card_le tval s.gs 0
  rw [inv.len] at h2
  omega

/-- Once the WaitGroup hits zero every goroutine has exited. -/
theorem all_finished_of_wg_zero {k : Kind} {max : Nat} {tval : Nat → Option ε}
    {n : Nat} {s : DoState ε} (inv : Inv k max tval n s) (h : s.wg = 0) :
    ∀ ph ∈ s.gs, ph = Phase.finished := by
  intro ph hm
  have h0 : s.gs.countP unfin = 0 := by rw [← inv.wgEq]; exact h
  have := List.countP_eq_zero.mp h0 ph hm
  cases ph <;> simp [unfin] at this ⊢

theorem contribs_all_finished (tval : Nat → Option ε) :
    ∀ (l : List (Phase ε)) (i : Nat), (∀ ph ∈ l, ph = Phase.finished) →
      contribs tval i l
        = (((List.range' i l.length).filterMap tval).map Option.some : List (Option ε)) := by
  intro l
  induction l with
  | nil => intro i _; simp [contribs]
  | cons x xs ih =>
    intro i h
    have hx : x = Phase.finished := h x (List.mem_cons_self x xs)
    subst hx
    have hrest := ih (i + 1) (fun ph hm => h ph (List.mem_cons_of_mem _ hm))
    simp only [contribs, List.length_cons, List.range'_succ, List.filterMap_cons]
    cases he : tval i with
    | none =>
      simp only [mcontrib, pastAdd, if_true, he, zero_add]
      exact hrest
    | some v =>
      simp only [mcontrib, pastAdd, if_true, he, List.map_cons]
      rw [hrest, ← Multiset.cons_coe, ← Multiset.singleton_add]

/-- In a completed run the collected slice is exactly the non-nil task results
(as a multiset: no loss, no duplication, no nil entries). -/
theorem errs_complete {k : Kind} {max : Nat} {tval : Nat → Option ε} {count : Nat}
    {s : DoState ε} (inv : Inv k max tval count s) (hwg : s.wg = 0) :
    (s.errs : Multiset (Option ε))
      = (((List.range count).filterMap tval).map Option.some : List (Option ε)) := by
  rw [inv.errsEq, contribs_all_finished tval s.gs 0 (all_finished_of_wg_zero inv hwg),
    inv.len, List.range_eq_range']

end Invariants

section Termination

/-! ### A termination measure, progress for `doOp`, and the stuck states of
`doOne` -/

/-- Per-goroutine termination measure.  `n` is the number of goroutines, `E`
the current length of the collected slice.  A successful CAS makes `E` grow,
which can only shrink the measure of other goroutines; a failed CAS moves its
goroutine back to `addReady`, but its loaded snapshot was strictly shorter than
the current slice, which makes the measure drop as well. -/
def mpiece (n E : Nat) : Phase ε → Nat
  | Phase.beforeAcquire => 2 * (n + 1 - E) + 5
  | Phase.taskReady => 2 * (n + 1 - E) + 4
  | Phase.taskRunning => 2 * (n + 1 - E) + 3
  | Phase.addReady => 2 * (n + 1 - E) + 2
  | Phase.addLoaded sp => 2 * (n + 1 - sp.length) + 1
  | Phase.afterAdd => 2 * (n + 1 - E) + 1
  | Phase.beforeDone => 2
  | Phase.finished => 0

/-- Global termination measure of a dispatcher state. -/
def measureOf (s : DoState ε) : Nat :=
  ∑ i ∈ Finset.range s.gs.length,
    mpiece s.gs.length s.errs.length ((s.gs[i]?).getD Phase.finished)

theorem mpiece_anti {n E E2 : Nat} (h : E ≤ E2) (ph : Phase ε) :
    mpiece n E2 ph ≤ mpiece n E ph := by
  cases ph <;> simp only [mpiece] <;> omega

theorem measure_set_lt {gs : List (Phase ε)} {errs1 errs2 : List (Option ε)}
    {j : Nat} (hlt : j < gs.length) (phNew : Phase ε)
    (hmono : errs1.length ≤ errs2.length)
    (hstrict : mpiece gs.length errs2.length phNew
      < mpiece gs.length errs1.length ((gs[j]?).getD Phase.finished)) :
    (∑ i ∈ Finset.range (gs.set j phNew).length,
        mpiece (gs.set j phNew).length errs2.length
          (((gs.set j phNew)[i]?).getD Phase.finished))
      < ∑ i ∈ Finset.range gs.length,
          mpiece gs.length errs1.length ((gs[i]?).getD Phase.finished) := by
  rw [List.length_set]
  apply Finset.sum_lt_sum
  · intro i _
    by_cases hij : j = i
    · subst hij
      rw [List.getElem?_set_self hlt]
      exact le_of_lt hstrict
    · rw [List.getElem?_set_ne hij]
      exact mpiece_anti hmono _
  · exact ⟨j, Finset.mem_range.mpr hlt, by rw [List.getElem?_set_self hlt]; exact hstrict⟩

/-- Every step strictly decreases the measure: no execution of either
dispatcher machine can take infinitely many steps (in particular the CAS retry
loop of `Errors.Add` cannot run forever). -/
theorem measure_step {k : Kind} {max : Nat} {tval : Nat → Option ε} {n : Nat}
    {s t : DoState ε} (inv : Inv k max tval n s) (hst : Step k max tval s t) :
    measureOf t < measureOf s := by
  have hE : s.errs.length ≤ s.gs.length := by
    have h1 := errs_length_le inv
    have h2 := inv.len
    omega
  cases hst with
  | opAcquire j hg hk hs =>
    have hlt := lt_of_getElem?_eq_some hg
    show (∑ i ∈ Finset.range (s.gs.set j Phase.taskReady).length, _) < _
    exact measure_set_lt hlt Phase.taskReady (le_refl _)
      (by rw [hg]; simp only [Option.getD_some, mpiece]; omega)
  | startTask j hg =>
    have hlt := lt_of_getElem?_eq_some hg
    exact measure_set_lt hlt Phase.taskRunning (le_refl _)
      (by rw [hg]; simp only [Option.getD_some, mpiece]; omega)
  | endTask j hg =>
    have hlt := lt_of_getElem?_eq_some hg
    exact measure_set_lt hlt Phase.addReady (le_refl _)
      (by rw [hg]; simp only [Option.getD_some, mpiece]; omega)
  | addSkip j hg he =>
    have hlt := lt_of_getElem?_eq_some hg
    exact measure_set_lt hlt Phase.afterAdd (le_refl _)
      (by rw [hg]; simp only [Option.getD_some, mpiece]; omega)
  | addLoad j v hg he =>
    have hlt := lt_of_getElem?_eq_some hg
    exact measure_set_lt hlt (Phase.addLoaded s.errs) (le_refl _)
      (by rw [hg]; simp only [Option.getD_some, mpiece]; omega)
  | addCasOk j v snap hg he hc =>
    have hlt := lt_of_getElem?_eq_some hg
    refine measure_set_lt hlt Phase.afterAdd ?_ ?_
    · simp [hc]
    · rw [hg]
      simp only [Option.getD_some, mpiece, List.length_cons]
      subst hc
      omega
  | addCasFail j snap hg hc =>
    have hlt := lt_of_getElem?_eq_some hg
    have hsuf := (inv.snapOk j snap hg).1
    have hlen : snap.length < s.errs.length := by
      rcases Nat.lt_or_ge snap.length s.errs.length with h | h
      · exact h
      · exact absurd (hsuf.sublist.eq_of_length_le h) (fun hh => hc hh.symm)
    exact measure_set_lt hlt Phase.addReady (le_refl _)
      (by rw [hg]; simp only [Option.getD_some, mpiece]; omega)
  | opRelease j hg hk hs =>
    have hlt := lt_of_getElem?_eq_some hg
    exact measure_set_lt hlt Phase.beforeDone (le_refl _)
      (by rw [hg]; simp only [Option.getD_some, mpiece]; omega)
  | oneAcquire j hg hk hs =>
    have hlt := lt_of_getElem?_eq_some hg
    exact measure_set_lt hlt Phase.beforeDone (le_refl _)
      (by rw [hg]; simp only [Option.getD_some, mpiece]; omega)
  | done j hg =>
    have hlt := lt_of_getElem?_eq_some hg
    exact measure_set_lt hlt Phase.finished (le_refl _)
      (by rw [hg]; simp only [Option.getD_some, mpiece]; omega)

/-- A goroutine of a `Funcs.Do` run that currently holds a semaphore token can
always take a step, provided the channel is non-empty (needed only for the
release at `afterAdd`). -/
theorem step_of_tok_op {max : Nat} {tval : Nat → Option ε} {n : Nat}
    {s : DoState ε} (inv : Inv Kind.op max tval n s) {j : Nat} {ph : Phase ε}
    (hg : s.gs[j]? = some ph) (htok : holdsTok Kind.op ph = true)
    (hsema : 0 < s.sema) :
    ∃ t, Step Kind.op max tval s t := by
  cases ph with
  | beforeAcquire => simp [holdsTok] at htok
  | taskReady => exact ⟨_, Step.startTask s j hg⟩
  | taskRunning => exact ⟨_, Step.endTask s j hg⟩
  | addReady =>
    cases he : tval j with
    | none => exact ⟨_, Step.addSkip s j hg he⟩
    | some v => exact ⟨_, Step.addLoad s j v hg he⟩
  | addLoaded sp =>
    rcases inv.snapOk j sp hg with ⟨-, hsome⟩
    cases he : tval j with
    | none => rw [he] at hsome; exact absurd hsome (by simp)
    | some v =>
      by_cases hc : s.errs = sp
      · exact ⟨_, Step.addCasOk s j v sp hg he hc⟩
      · exact ⟨_, Step.addCasFail s j sp hg hc⟩
  | afterAdd => exact ⟨_, Step.opRelease s j hg rfl hsema⟩
  | beforeDone => exact ⟨_, Step.done s j hg⟩
  | finished => simp [holdsTok] at htok

/-- Progress for `Funcs.Do`: as long as the WaitGroup is positive some
goroutine has an enabled step — a `doOp` run can never deadlock (semaphore
capacity at least 1, as `NewSemaphore` guarantees). -/
theorem progress_op {max : Nat} {tval : Nat → Option ε} {n : Nat}
    {s : DoState ε} (hmax : 1 ≤ max) (inv : Inv Kind.op max tval n s)
    (hwg : 0 < s.wg) :
    ∃ t, Step Kind.op max tval s t := by
  have hpos : 0 < s.gs.countP unfin := by
    have := inv.wgEq
    omega
  rcases List.countP_pos_iff.mp hpos with ⟨ph, hm, hunf⟩
  rcases List.mem_iff_getElem?.mp hm with ⟨j, hg⟩
  cases ph with
  | beforeAcquire =>
    by_cases hs : s.sema < max
    · exact ⟨_, Step.opAcquire s j hg rfl hs⟩
    · have hsema : 0 < s.sema := by
        have := inv.semMax
        omega
      have htokpos : 0 < s.gs.countP (holdsTok Kind.op) := by
        have := inv.sem
        omega
      rcases List.countP_pos_iff.mp htokpos with ⟨ph2, hm2, htok2⟩
      rcases List.mem_iff_getElem?.mp hm2 with ⟨j2, hg2⟩
      exact step_of_tok_op inv hg2 htok2 hsema
  | taskReady => exact ⟨_, Step.startTask s j hg⟩
  | taskRunning => exact ⟨_, Step.endTask s j hg⟩
  | addReady =>
    cases he : tval j with
    | none => exact ⟨_, Step.addSkip s j hg he⟩
    | some v => exact ⟨_, Step.addLoad s j v hg he⟩
  | addLoaded sp =>
    rcases inv.snapOk j sp hg with ⟨-, hsome⟩
    cases he : tval j with
    | none => rw [he] at hsome; exact absurd hsome (by simp)
    | some v =>
      by_cases hc : s.errs = sp
      · exact ⟨_, Step.addCasOk s j v sp hg he hc⟩
      · exact ⟨_, Step.addCasFail s j sp hg hc⟩
  | afterAdd =>
    have hsema : 0 < s.sema := by
      rw [inv.sem]
      exact List.countP_pos_iff.mpr ⟨Phase.afterAdd, List.getElem?_mem hg, rfl⟩
    exact ⟨_, Step.opRelease s j hg rfl hsema⟩
  | beforeDone => exact ⟨_, Step.done s j hg⟩
  | finished => simp [unfin] at hunf

/-- In a stuck `Func.Do` run every goroutine is past its `errs.Add` call: it is
either blocked forever in the deferred `sema.AcquireRelease()` (`afterAdd`) or
has exited (`finished`). -/
theorem stuck_one_past_add {max : Nat} {tval : Nat → Option ε} {n : Nat}
    {s : DoState ε} (inv : Inv Kind.one max tval n s)
    (hstuck : ∀ t, ¬ Step Kind.one max tval s t) :
    ∀ (j : Nat) (ph : Phase ε), s.gs[j]? = some ph →
      ph = Phase.afterAdd ∨ ph = Phase.finished := by
  intro j ph hg
  cases ph with
  | beforeAcquire => exact absurd hg (inv.noBA rfl j)
  | taskReady => exact absurd (Step.startTask s j hg) (hstuck _)
  | taskRunning => exact absurd (Step.endTask s j hg) (hstuck _)
  | addReady =>
    cases he : tval j with
    | none => exact absurd (Step.addSkip s j hg he) (hstuck _)
    | some v => exact absurd (Step.addLoad s j v hg he) (hstuck _)
  | addLoaded sp =>
    rcases inv.snapOk j sp hg with ⟨-, hsome⟩
    cases he : tval j with
    | none => rw [he] at hsome; exact absurd hsome (by simp)
    | some v =>
      by_cases hc : s.errs = sp
      · exact absurd (Step.addCasOk s j v sp hg he hc) (hstuck _)
      · exact absurd (Step.addCasFail s j sp hg hc) (hstuck _)
  | afterAdd => exact Or.inl rfl
  | beforeDone => exact absurd (Step.done s j hg) (hstuck _)
  | finished => exact Or.inr rfl

/-- `Func.Do` can never return when there are more units than semaphore slots:
at most `max` `doOne` goroutines ever complete their deferred
`sema.AcquireRelease()` call (each completion permanently occupies a channel
slot), so at most `max` ever reach `wg.Done()` and the WaitGroup counter stays
positive. -/
theorem one_wg_pos {max : Nat} {tval : Nat → Option ε} {n : Nat}
    {s : DoState ε} (inv : Inv Kind.one max tval n s) (hcm : max < n) :
    0 < s.wg := by
  have hlen := inv.len
  have hwg := inv.wgEq
  have hsem := inv.sem
  have hsemMax := inv.semMax
  have hsplit := List.length_eq_countP_add_countP (p := unfin) s.gs
  have hmono : s.gs.countP (fun ph => ¬ unfin ph) ≤ s.gs.countP (holdsTok Kind.one) :=
    List.countP_mono_left (fun ph _ hp => by
      cases ph <;> simp [unfin, holdsTok] at hp ⊢)
  omega

end Termination

section Invocations

/-! ### Invocation events -/

/-- Is `ev` an invocation of the task of unit `j`? -/
def isInvokeEv (j : Nat) (ev : Event) : Bool :=
  match ev.ek with
  | EKind.invoke _ => ev.gid == j
  | _ => false

/-- All invocation events of unit `j` in the history. -/
def invokesOf (j : Nat) (log : List Event) : List Event :=
  log.filter (isInvokeEv j)

theorem invokesOf_eq_filter_logOf (j : Nat) (log : List Event) :
    invokesOf j log = (logOf j log).filter (isInvokeEv j) := by
  unfold invokesOf logOf
  rw [List.filter_filter]
  apply List.filter_congr
  intro ev _
  cases hk : ev.ek <;> simp [isInvokeEv, hk] <;> intro h <;> simp [h]

/-- By the time a goroutine has passed its `errs.Add` call it has invoked its
task exactly once, with its own unit index as argument. -/
theorem invokes_phaseEvents_past (k : Kind) (tval : Nat → Option ε) (j : Nat)
    (ph : Phase ε) (hpast : pastAdd ph = true) :
    (phaseEvents k tval j ph).filter (isInvokeEv j) = [⟨j, EKind.invoke j⟩] := by
  cases k <;> cases ph <;> simp [pastAdd] at hpast <;>
    cases htv : tval j <;>
      simp [phaseEvents, recEvents, isInvokeEv, htv]

/-- At every control point a goroutine has invoked its task at most once (and
always with its own unit index as argument). -/
theorem invokes_phaseEvents_any (k : Kind) (tval : Nat → Option ε) (j : Nat)
    (ph : Phase ε) :
    (phaseEvents k tval j ph).filter (isInvokeEv j) = []
      ∨ (phaseEvents k tval j ph).filter (isInvokeEv j) = [⟨j, EKind.invoke j⟩] := by
  cases k <;> cases ph <;>
    first
      | (left; simp [phaseEvents, isInvokeEv]; done)
      | (right; cases htv : tval j <;> simp [phaseEvents, recEvents, isInvokeEv, htv] <;> done)

end Invocations

section SourceLevel

/-! ### The remaining source-level definitions -/

/-- The `Errors.Err()` value of the collected slice:

    if p.errs == nil { return nil }
    return multierr.Combine(*p.errs...)

The external collaborator `multierr.Combine` is modelled at its interface
boundary (spec section 6): it drops nil values and produces a combined value
representing exactly the remaining individual errors, or nil for an empty
sequence.  We represent that combined value by the list of those errors. -/
def errsErr (l : List (Option ε)) : Option (List ε) :=
  match l.filterMap id with
  | [] => none
  | e :: rest => some (e :: rest)

/-- Task results of a `Funcs.Do` run: `for i, fn := range fns { go doOp(i, ...) }`
runs `fns[j]` with its position `j` in the set as the index argument. -/
def tvalOf (fns : List (Nat → Option ε)) (j : Nat) : Option ε :=
  match fns[j]? with
  | some f => f j
  | none => none

/-- The concurrency cap used by `Func.Do` and `Funcs.Do`:

    max := maxproc
    if len(maxParallel) != 0 && maxParallel[0] > 0 {
        max = maxParallel[0]
    }

`maxproc = runtime.GOMAXPROCS(0)` is an external input (at least 1 on any
host). -/
def effMax (maxproc : Int) (maxParallel : List Int) : Int :=
  match maxParallel with
  | [] => maxproc
  | m :: _ => if m > 0 then m else maxproc

/-- Initial machine state of `Func.Do(count, ...)`.  When `count = 0` the
WaitGroup counter is zero from the start, matching the source's immediate
`return` (no goroutine is spawned and `Do` returns a nil error). -/
def funcDoInit (count : Nat) : DoState ε := initState Kind.one count

/-- Initial machine state of `fns.Do(...)` for a task set `fns`. -/
def funcsDoInit (fns : List (Nat → Option ε)) : DoState ε :=
  initState Kind.op fns.length

end SourceLevel

section SemaphoreModel

/-! ### The `Semaphore` type on its own

`type Semaphore chan struct{}` — a buffered channel of capacity `max`.  We
model the channel by the number `n` of occupied buffer slots; a send
(`Acquire`) completes only when `n < max`, a receive (`Release`) only when
`0 < n`.  The number of tokens still available to acquire is `max - n`. -/

structure Semaphore : Type where
  max : Nat
  n : Nat
deriving DecidableEq

/-- `NewSemaphore(max)`:

    if max < 1 { panic(...) }
    return make(Semaphore, max)

The panic is modelled as `none`: construction fails fatally rather than
returning a semaphore. -/
def NewSemaphore (max : Int) : Option Semaphore :=
  if max < 1 then none else some ⟨max.toNat, 0⟩

/-- Tokens still available to acquire. -/
def Semaphore.avail (s : Semaphore) : Int := (s.max : Int) - (s.n : Int)

/-- `Acquire` — `s <- struct{}{}`: blocks (no result) until a slot is free. -/
def Semaphore.acquire (s : Semaphore) : Option Semaphore :=
  if s.n < s.max then some ⟨s.max, s.n + 1⟩ else none

/-- `Release` — `<-s`: blocks (no result) until the buffer is non-empty. -/
def Semaphore.release (s : Semaphore) : Option Semaphore :=
  if 0 < s.n then some ⟨s.max, s.n - 1⟩ else none

/-- A release action a caller can hold: the package-level `func noop() {}` or
the bound method `s.Release`. -/
inductive RelAction : Type where
  | noop : RelAction
  | rel : RelAction
deriving DecidableEq

/-- Invoking a release action: `noop()` always completes and does nothing;
`s.Release` is a channel receive. -/
def runRel : RelAction → Semaphore → Option Semaphore
  | RelAction.noop, s => some s
  | RelAction.rel, s => s.release

/-- `AcquireRelease()` — acquires (blocking) and hands back `s.Release`. -/
def Semaphore.acquireRelease (s : Semaphore) : Option (Semaphore × RelAction) :=
  s.acquire.map (fun t => (t, RelAction.rel))

/-- `MaybeAcquire()` —

    release = noop
    select {
    case s <- struct{}{}:
        ok = true
        release = s.Release
    default:
    }
    return

The `select` with a `default` branch never blocks: if the send can complete
now it does (`ok = true`, release func `s.Release`), otherwise nothing happens
(`ok = false`, release func `noop`). -/
def Semaphore.maybeAcquire (s : Semaphore) : Bool × Semaphore × RelAction :=
  match s.acquire with
  | some t => (true, t, RelAction.rel)
  | none => (false, s, RelAction.noop)

/-- One completed semaphore operation by some caller: any interleaving of
`Acquire`, `AcquireRelease`, `MaybeAcquire` and `Release` calls from
arbitrarily many concurrent callers is a sequence of such completions. -/
inductive SemStep : Semaphore → Semaphore → Prop where
  | acquire (s t : Semaphore) : s.acquire = some t → SemStep s t
  | acquireRelease (s t : Semaphore) (r : RelAction) :
      s.acquireRelease = some (t, r) → SemStep s t
  | maybeAcquire (s : Semaphore) : SemStep s (s.maybeAcquire).2.1
  | release (s t : Semaphore) : s.release = some t → SemStep s t

theorem semStep_inv {s t : Semaphore} (h : SemStep s t) (hle : s.n ≤ s.max) :
    t.n ≤ t.max ∧ t.max = s.max := by
  cases h with
  | acquire t ha =>
    unfold Semaphore.acquire at ha
    split at ha
    · cases ha; simp_all; omega
    · exact absurd ha (by simp)
  | acquireRelease t r ha =>
    unfold Semaphore.acquireRelease Semaphore.acquire at ha
    split at ha
    · cases ha; simp_all; omega
    · exact absurd ha (by simp)
  | maybeAcquire =>
    unfold Semaphore.maybeAcquire Semaphore.acquire
    split
    · rename_i t2 heq
      split at heq
      · cases heq; simp_all; omega
      · exact absurd heq (by simp)
    · exact ⟨hle, rfl⟩
  | release t ha =>
    unfold Semaphore.release at ha
    split at ha
    · cases ha; simp_all; omega
    · exact absurd ha (by simp)

end SemaphoreModel

section ConcreteRuns

/-! ### Concrete runs used as witnesses (error values are `Nat`) -/

/-- A task that always fails with error value `0`. -/
def taskErr : Nat → Option Nat := fun _ => some 0

/-- A task that always succeeds. -/
def taskNil : Nat → Option Nat := fun _ => none

/-- A one-element task set whose task fails with error value `0`. -/
def fnsErr : List (Nat → Option Nat) := [fun _ => some 0]

/-- A one-element task set whose task succeeds. -/
def fnsNil : List (Nat → Option Nat) := [fun _ => none]

/-- `Func.Do(1, 1)`: the single task body is executing while the semaphore has
never been acquired. -/
def sOneRunning : DoState Nat :=
  ⟨0, [], 1, [Phase.taskRunning], [⟨0, EKind.invoke 0⟩]⟩

/-- `Func.Do(2, 1)`: both task bodies executing at once under cap 1. -/
def sTwoRunning : DoState Nat :=
  ⟨0, [], 2, [Phase.taskRunning, Phase.taskRunning],
    [⟨0, EKind.invoke 0⟩, ⟨1, EKind.invoke 1⟩]⟩

/-- Completed `Func.Do(1, 1)` run with a failing task: note the acquire comes
after record and there is no release. -/
def sOneErrDone : DoState Nat :=
  ⟨1, [some 0], 0, [Phase.finished],
    [⟨0, EKind.invoke 0⟩, ⟨0, EKind.ret⟩, ⟨0, EKind.record⟩,
      ⟨0, EKind.acquire⟩, ⟨0, EKind.signal⟩]⟩

/-- Completed `fnsErr.Do(1)` run: acquire, invoke, return, record, release,
signal. -/
def sOpErrDone : DoState Nat :=
  ⟨0, [some 0], 0, [Phase.finished],
    [⟨0, EKind.acquire⟩, ⟨0, EKind.invoke 0⟩, ⟨0, EKind.ret⟩,
      ⟨0, EKind.record⟩, ⟨0, EKind.release⟩, ⟨0, EKind.signal⟩]⟩

/-- Completed `fnsNil.Do(1)` run. -/
def sOpNilDone : DoState Nat :=
  ⟨0, [], 0, [Phase.finished],
    [⟨0, EKind.acquire⟩, ⟨0, EKind.invoke 0⟩, ⟨0, EKind.ret⟩,
      ⟨0, EKind.release⟩, ⟨0, EKind.signal⟩]⟩

/-- Completed `Func.Do(1, 1)` run with a succeeding task. -/
def sOneNilDone : DoState Nat :=
  ⟨1, [], 0, [Phase.finished],
    [⟨0, EKind.invoke 0⟩, ⟨0, EKind.ret⟩, ⟨0, EKind.acquire⟩,
      ⟨0, EKind.signal⟩]⟩

theorem reach_sOneRunning :
    Reach Kind.one 1 taskErr (funcDoInit 1) sOneRunning :=
  reach_of_runSched [0] (by rfl)

theorem reach_sTwoRunning :
    Reach Kind.one 1 taskNil (funcDoInit 2) sTwoRunning :=
  reach_of_runSched [0, 1] (by rfl)

theorem reach_sOneErrDone :
    Reach Kind.one 1 taskErr (funcDoInit 1) sOneErrDone :=
  reach_of_runSched [0, 0, 0, 0, 0, 0] (by rfl)

theorem reach_sOpErrDone :
    Reach Kind.op 1 (tvalOf fnsErr) (funcsDoInit fnsErr) sOpErrDone :=
  reach_of_runSched [0, 0, 0, 0, 0, 0, 0] (by rfl)

theorem reach_sOpNilDone :
    Reach Kind.op 1 (tvalOf fnsNil) (funcsDoInit fnsNil) sOpNilDone :=
  reach_of_runSched [0, 0, 0, 0, 0, 0] (by rfl)

theorem reach_sOneNilDone :
    Reach Kind.one 1 taskNil (funcDoInit 1) sOneNilDone :=
  reach_of_runSched [0, 0, 0, 0, 0] (by rfl)

/-- A state with no goroutines takes no step. -/
theorem no_step_of_empty {k : Kind} {max : Nat} {tval : Nat → Option ε}
    {s : DoState ε} (hemp : s.gs = []) : ∀ t, ¬ Step k max tval s t := by
  intro t hstep
  cases hstep with
  | opAcquire j hg hk hs => rw [hemp] at hg; simp at hg
  | startTask j hg => rw [hemp] at hg; simp at hg
  | endTask j hg => rw [hemp] at hg; simp at hg
  | addSkip j hg he => rw [hemp] at hg; simp at hg
  | addLoad j v hg he => rw [hemp] at hg; simp at hg
  | addCasOk j v snap hg he hc => rw [hemp] at hg; simp at hg
  | addCasFail j snap hg hc => rw [hemp] at hg; simp at hg
  | opRelease j hg hk hs => rw [hemp] at hg; simp at hg
  | oneAcquire j hg hk hs => rw [hemp] at hg; simp at hg
  | done j hg => rw [hemp] at hg; simp at hg

/-- A state where every goroutine has exited takes no step. -/
theorem no_step_of_all_finished {k : Kind} {max : Nat} {tval : Nat → Option ε}
    {s : DoState ε} (hfin : ∀ ph ∈ s.gs, ph = Phase.finished) :
    ∀ t, ¬ Step k max tval s t := by
  intro t hstep
  cases hstep with
  | opAcquire j hg hk hs => simpa using hfin _ (List.getElem?_mem hg)
  | startTask j hg => simpa using hfin _ (List.getElem?_mem hg)
  | endTask j hg => simpa using hfin _ (List.getElem?_mem hg)
  | addSkip j hg he => simpa using hfin _ (List.getElem?_mem hg)
  | addLoad j v hg he => simpa using hfin _ (List.getElem?_mem hg)
  | addCasOk j v snap hg he hc => simpa using hfin _ (List.getElem?_mem hg)
  | addCasFail j snap hg hc => simpa using hfin _ (List.getElem?_mem hg)
  | opRelease j hg hk hs => simpa using hfin _ (List.getElem?_mem hg)
  | oneAcquire j hg hk hs => simpa using hfin _ (List.getElem?_mem hg)
  | done j hg => simpa using hfin _ (List.getElem?_mem hg)

/-- A dispatch of zero units never moves: the machine stays in its (already
terminal) initial state. -/
theorem reach_zero_fixed {k : Kind} {max : Nat} {tval : Nat → Option ε}
    {s : DoState ε} (h : Reach k max tval (initState k 0) s) :
    s = initState k 0 := by
  induction h with
  | refl => rfl
  | tail hr hstep ih =>
    subst ih
    exact absurd hstep (no_step_of_empty (by simp [initState]) _)

end ConcreteRuns

section Claims

/-! ### Claim theorems -/

/-- C1 (counterexample): the claimed order "acquire, invoke, return, release,
record, signal" does not hold.  In a completed `RunSet` over the one-element
set `fnsErr` with cap 1 the error is recorded *before* the semaphore release
(events at positions 3 and 4).  In a `RunIndexed` run of one unit with cap 1
the task body executes while the semaphore has never been acquired at all (the
only event so far is the invocation and no slot is occupied). -/
theorem dispatch_order_counterexample :
    (Reach Kind.op 1 (tvalOf fnsErr) (funcsDoInit fnsErr) sOpErrDone
      ∧ sOpErrDone.wg = 0
      ∧ sOpErrDone.log
          = [⟨0, EKind.acquire⟩, ⟨0, EKind.invoke 0⟩, ⟨0, EKind.ret⟩,
              ⟨0, EKind.record⟩, ⟨0, EKind.release⟩, ⟨0, EKind.signal⟩]
      ∧ sOpErrDone.log[3]? = some ⟨0, EKind.record⟩
      ∧ sOpErrDone.log[4]? = some ⟨0, EKind.release⟩)
    ∧ (Reach Kind.one 1 taskErr (funcDoInit 1) sOneRunning
        ∧ sOneRunning.gs = [Phase.taskRunning]
        ∧ sOneRunning.sema = 0
        ∧ sOneRunning.log = [⟨0, EKind.invoke 0⟩])
    ∧ ¬ (∀ s : DoState Nat,
          Reach Kind.op 1 (tvalOf fnsErr) (funcsDoInit fnsErr) s → s.wg = 0 →
            logOf 0 s.log
              = [⟨0, EKind.acquire⟩, ⟨0, EKind.invoke 0⟩, ⟨0, EKind.ret⟩,
                  ⟨0, EKind.release⟩, ⟨0, EKind.record⟩, ⟨0, EKind.signal⟩])
    ∧ ¬ (∀ s : DoState Nat,
          Reach Kind.one 1 taskErr (funcDoInit 1) s →
            0 < s.gs.countP isRun → 0 < s.sema) := by
  refine ⟨⟨reach_sOpErrDone, by decide, by decide, by decide, by decide⟩,
    ⟨reach_sOneRunning, by decide, by decide, by decide⟩, ?_, ?_⟩
  · intro h
    exact absurd (h sOpErrDone reach_sOpErrDone (by decide)) (by decide)
  · intro h
    exact absurd (h sOneRunning reach_sOneRunning (by decide)) (by decide)

/-- C1 (amended): per-unit event order of the two dispatchers.  A completed
`doOp` execution acquires the semaphore, invokes the task with its index, and
after the task returns records any non-nil error, then releases the semaphore
and signals the barrier.  A completed `doOne` execution invokes the task and
records any non-nil error without touching the semaphore, then acquires the
semaphore (never releasing it) and signals the barrier. -/
theorem dispatch_order (max count : Nat) (tval : Nat → Option ε) (s : DoState ε) :
    (Reach Kind.op max tval (initState Kind.op count) s →
      ∀ (j : Nat), s.gs[j]? = some Phase.finished →
        logOf j s.log
          = [⟨j, EKind.acquire⟩, ⟨j, EKind.invoke j⟩, ⟨j, EKind.ret⟩]
            ++ recEvents j (tval j) ++ [⟨j, EKind.release⟩, ⟨j, EKind.signal⟩])
    ∧ (Reach Kind.one max tval (initState Kind.one count) s →
        ∀ (j : Nat), s.gs[j]? = some Phase.finished →
          logOf j s.log
            = [⟨j, EKind.invoke j⟩, ⟨j, EKind.ret⟩]
              ++ recEvents j (tval j) ++ [⟨j, EKind.acquire⟩, ⟨j, EKind.signal⟩]) := by
  constructor
  · intro hr j hg
    have h := (inv_reach hr).logEq j
    rw [hg] at h
    exact h
  · intro hr j hg
    have h := (inv_reach hr).logEq j
    rw [hg] at h
    exact h

theorem dispatch_order_witness :
    (logOf 0 sOpErrDone.log
        = [⟨0, EKind.acquire⟩, ⟨0, EKind.invoke 0⟩, ⟨0, EKind.ret⟩]
          ++ recEvents 0 (tvalOf fnsErr 0) ++ [⟨0, EKind.release⟩, ⟨0, EKind.signal⟩])
    ∧ (logOf 0 sOneErrDone.log
        = [⟨0, EKind.invoke 0⟩, ⟨0, EKind.ret⟩]
          ++ recEvents 0 (taskErr 0) ++ [⟨0, EKind.acquire⟩, ⟨0, EKind.signal⟩]) :=
  ⟨(dispatch_order 1 1 (tvalOf fnsErr) sOpErrDone).1 reach_sOpErrDone 0 (by decide),
   (dispatch_order 1 1 taskErr sOneErrDone).2 reach_sOneErrDone 0 (by decide)⟩

/-- C2: termination.  `Func.Do` never returns when there are more units than
the cap — in every reachable state of a `doOne` run with `max < count` the
WaitGroup counter stays positive (so `wg.Wait()` never returns even though
every task body runs).  `Funcs.Do` does terminate: a `doOp` run with a
positive cap always has an enabled step until the WaitGroup reaches zero, and
every step strictly decreases the termination measure (for both machines), so
every maximal `doOp` run ends with the WaitGroup at zero. -/
theorem do_termination :
    (∀ (max count : Nat) (tval : Nat → Option ε) (s : DoState ε),
        max < count → Reach Kind.one max tval (funcDoInit count) s → 0 < s.wg)
    ∧ (∀ (max count : Nat) (tval : Nat → Option ε) (s : DoState ε),
        1 ≤ max → Reach Kind.op max tval (initState Kind.op count) s →
          0 < s.wg → ∃ t, Step Kind.op max tval s t)
    ∧ (∀ (k : Kind) (max count : Nat) (tval : Nat → Option ε) (s t : DoState ε),
        Reach k max tval (initState k count) s → Step k max tval s t →
          measureOf t < measureOf s) := by
  refine ⟨?_, ?_, ?_⟩
  · intro max count tval s hcm hr
    exact one_wg_pos (inv_reach hr) hcm
  · intro max count tval s hmax hr hwg
    exact progress_op hmax (inv_reach hr) hwg
  · intro k max count tval s t hr hstep
    exact measure_step (inv_reach hr) hstep

theorem do_termination_witness :
    (0 < (funcDoInit (ε := Nat) 2).wg)
    ∧ (∃ t, Step Kind.op 1 taskNil (initState (ε := Nat) Kind.op 1) t)
    ∧ measureOf sOneRunning < measureOf (funcDoInit (ε := Nat) 1) :=
  ⟨do_termination.1 1 2 taskNil (funcDoInit 2) (by omega) Relation.ReflTransGen.refl,
   do_termination.2.1 1 1 taskNil (initState Kind.op 1) (by omega)
     Relation.ReflTransGen.refl (by decide),
   do_termination.2.2 Kind.one 1 1 taskErr (funcDoInit 1) sOneRunning
     Relation.ReflTransGen.refl
     (stepG_sound (show stepG Kind.one 1 taskErr 0 (funcDoInit 1) = some sOneRunning from rfl))⟩

/-- C3: the concurrency cap.  `Func.Do` violates it: with cap 1 and two units,
a reachable state has both task bodies executing at once (the `doOne`
goroutines run their bodies before touching the semaphore).  `Funcs.Do` honors
it: in every reachable `doOp` state the number of executing task bodies is at
most the cap, because every executing body holds a semaphore slot and the
channel never holds more than `max`. -/
theorem cap_violation :
    (Reach Kind.one 1 taskNil (funcDoInit 2) sTwoRunning
      ∧ 1 < sTwoRunning.gs.countP isRun)
    ∧ (∀ (max count : Nat) (tval : Nat → Option ε) (s : DoState ε),
        Reach Kind.op max tval (initState Kind.op count) s →
          s.gs.countP isRun ≤ max) := by
  constructor
  · exact ⟨reach_sTwoRunning, by decide⟩
  · intro max count tval s hr
    have inv := inv_reach hr
    have h1 : s.gs.countP isRun ≤ s.gs.countP (holdsTok Kind.op) :=
      List.countP_mono_left (fun ph _ hp => by
        cases ph <;> simp [isRun, holdsTok] at hp ⊢)
    have h2 := inv.sem
    have h3 := inv.semMax
    omega

theorem cap_violation_witness :
    (initState (ε := Nat) Kind.op 1).gs.countP isRun ≤ 1 :=
  cap_violation.2 1 1 taskNil (initState Kind.op 1) Relation.ReflTransGen.refl

/-- `Errors.Err()` in terms of the stored slice: nil exactly when no non-nil
error is stored, and otherwise the combined value carries exactly the stored
errors. -/
theorem errsErr_spec (l : List (Option ε)) :
    (errsErr l = none ↔ l.filterMap id = [])
    ∧ (∀ r : List ε, errsErr l = some r → r = l.filterMap id) := by
  unfold errsErr
  cases hm : l.filterMap id with
  | nil => simp
  | cons e rest => simp

/-- C4: `RunIndexed` invocations.  `count = 0` returns at once with a nil
error and no events.  In every reachable state each index has been invoked at
most once, always with its own index as argument; and when the run stops (no
step enabled — completion or the permanent block in the deferred acquire),
every index in `[0, count)` has been invoked exactly once and no other index
ever. -/
theorem runIndexed_invocations :
    ((doResult (funcDoInit (ε := ε) 0) = some []
        ∧ errsErr (funcDoInit (ε := ε) 0).errs = none)
      ∧ (∀ (max : Nat) (tval : Nat → Option ε) (s : DoState ε),
          Reach Kind.one max tval (funcDoInit 0) s → s.log = []))
    ∧ (∀ (max count : Nat) (tval : Nat → Option ε) (s : DoState ε),
        Reach Kind.one max tval (funcDoInit count) s →
          ∀ (j : Nat), invokesOf j s.log = []
            ∨ invokesOf j s.log = [⟨j, EKind.invoke j⟩])
    ∧ (∀ (max count : Nat) (tval : Nat → Option ε) (s : DoState ε),
        Reach Kind.one max tval (funcDoInit count) s →
        (∀ t, ¬ Step Kind.one max tval s t) →
          (∀ (j : Nat), j < count → invokesOf j s.log = [⟨j, EKind.invoke j⟩])
            ∧ (∀ (j : Nat), count ≤ j → invokesOf j s.log = [])) := by
  refine ⟨⟨⟨rfl, rfl⟩, ?_⟩, ?_, ?_⟩
  · intro max tval s hr
    rw [reach_zero_fixed hr]
    rfl
  · intro max count tval s hr j
    have inv := inv_reach hr
    rw [invokesOf_eq_filter_logOf, inv.logEq j]
    cases hg : s.gs[j]? with
    | none => left; rfl
    | some ph => exact invokes_phaseEvents_any Kind.one tval j ph
  · intro max count tval s hr hstuck
    have inv := inv_reach hr
    constructor
    · intro j hj
      have hlt : j < s.gs.length := by rw [inv.len]; exact hj
      have hg : s.gs[j]? = some s.gs[j] := List.getElem?_eq_getElem hlt
      rw [invokesOf_eq_filter_logOf, inv.logEq j, hg]
      rcases stuck_one_past_add inv hstuck j _ hg with h | h
      · rw [h]
        exact invokes_phaseEvents_past Kind.one tval j Phase.afterAdd rfl
      · rw [h]
        exact invokes_phaseEvents_past Kind.one tval j Phase.finished rfl
    · intro j hj
      have hg : s.gs[j]? = none := List.getElem?_eq_none (by rw [inv.len]; exact hj)
      rw [invokesOf_eq_filter_logOf, inv.logEq j, hg]
      rfl

theorem runIndexed_invocations_witness :
    invokesOf 0 sOneNilDone.log = [⟨0, EKind.invoke 0⟩]
    ∧ invokesOf 5 sOneNilDone.log = [] :=
  ⟨(runIndexed_invocations.2.2 1 1 taskNil sOneNilDone reach_sOneNilDone
      (no_step_of_all_finished (by decide))).1 0 (by decide),
   (runIndexed_invocations.2.2 1 1 taskNil sOneNilDone reach_sOneNilDone
      (no_step_of_all_finished (by decide))).2 5 (by decide)⟩

/-- C5: error aggregation.  In any completed dispatch (either machine) the
stored slice is, as a multiset, exactly the non-nil task results — each failed
unit contributes its error exactly once, nil results are never stored — and
`Errors.Err()` is nil exactly when no unit failed, and otherwise a combined
value representing exactly the `k` collected errors. -/
theorem dispatch_errors (k : Kind) (max count : Nat) (tval : Nat → Option ε)
    (s : DoState ε) (hr : Reach k max tval (initState k count) s)
    (hwg : s.wg = 0) :
    ((s.errs : Multiset (Option ε))
        = (((List.range count).filterMap tval).map Option.some : List (Option ε)))
    ∧ (errsErr s.errs = none ↔ (List.range count).filterMap tval = [])
    ∧ (∀ l : List ε, errsErr s.errs = some l →
        (l : Multiset ε) = (((List.range count).filterMap tval : List ε) : Multiset ε)) := by
  have inv := inv_reach hr
  have h1 := errs_complete inv hwg
  have hperm : List.Perm (s.errs.filterMap id) ((List.range count).filterMap tval) := by
    have h2 : s.errs.Perm (((List.range count).filterMap tval).map Option.some) :=
      Multiset.coe_eq_coe.mp h1
    have h3 := h2.filterMap id
    have hcomp : (id ∘ (Option.some : ε → Option ε)) = Option.some := rfl
    rwa [List.filterMap_map, hcomp, List.filterMap_some] at h3
  refine ⟨h1, ?_, ?_⟩
  · rw [(errsErr_spec s.errs).1]
    constructor
    · intro h
      rw [h] at hperm
      exact (List.Perm.eq_nil hperm.symm)
    · intro h
      rw [h] at hperm
      exact List.Perm.eq_nil hperm
  · intro l hl
    rw [(errsErr_spec s.errs).2 l hl]
    exact Multiset.coe_eq_coe.mpr hperm

theorem dispatch_errors_witness :
    ((sOneErrDone.errs : Multiset (Option Nat))
        = (((List.range 1).filterMap taskErr).map Option.some : List (Option Nat)))
    ∧ (errsErr sOneErrDone.errs = none ↔ (List.range 1).filterMap taskErr = []) :=
  ⟨(dispatch_errors Kind.one 1 1 taskErr sOneErrDone reach_sOneErrDone (by decide)).1,
   (dispatch_errors Kind.one 1 1 taskErr sOneErrDone reach_sOneErrDone (by decide)).2.1⟩

/-- C6: `RunSet` invocations.  The empty set returns at once with a nil error
and no events.  A `doOp` run with a positive cap can only stop when complete;
in every completed run each task in the set has been invoked exactly once,
with its position as the index argument; and two consecutive completed runs of
the same (unmodified) set both invoke every task once — two invocations in
total per task, since `Do` never mutates the set. -/
theorem runSet_invocations :
    ((doResult (funcsDoInit ([] : List (Nat → Option ε))) = some []
        ∧ errsErr (funcsDoInit ([] : List (Nat → Option ε))).errs = none)
      ∧ (∀ (max : Nat) (s : DoState ε),
          Reach Kind.op max (tvalOf []) (funcsDoInit []) s → s.log = []))
    ∧ (∀ (fns : List (Nat → Option ε)) (max : Nat) (s : DoState ε),
        1 ≤ max → Reach Kind.op max (tvalOf fns) (funcsDoInit fns) s →
        (∀ t, ¬ Step Kind.op max (tvalOf fns) s t) → s.wg = 0)
    ∧ (∀ (fns : List (Nat → Option ε)) (max : Nat) (s : DoState ε),
        Reach Kind.op max (tvalOf fns) (funcsDoInit fns) s → s.wg = 0 →
          ∀ (j : Nat), j < fns.length → invokesOf j s.log = [⟨j, EKind.invoke j⟩])
    ∧ (∀ (fns : List (Nat → Option ε)) (max : Nat) (s1 s2 : DoState ε),
        Reach Kind.op max (tvalOf fns) (funcsDoInit fns) s1 → s1.wg = 0 →
          Reach Kind.op max (tvalOf fns) (funcsDoInit fns) s2 → s2.wg = 0 →
          ∀ (j : Nat), j < fns.length →
            (invokesOf j s1.log).length + (invokesOf j s2.log).length = 2) := by
  have key : ∀ (fns : List (Nat → Option ε)) (max : Nat) (s : DoState ε),
      Reach Kind.op max (tvalOf fns) (funcsDoInit fns) s → s.wg = 0 →
        ∀ (j : Nat), j < fns.length → invokesOf j s.log = [⟨j, EKind.invoke j⟩] := by
    intro fns max s hr hwg j hj
    have inv := inv_reach hr
    have hlt : j < s.gs.length := by rw [inv.len]; exact hj
    have hg : s.gs[j]? = some s.gs[j] := List.getElem?_eq_getElem hlt
    have hfin : s.gs[j] = Phase.finished :=
      all_finished_of_wg_zero inv hwg _ (List.getElem?_mem hg)
    rw [invokesOf_eq_filter_logOf, inv.logEq j, hg, hfin]
    exact invokes_phaseEvents_past Kind.op (tvalOf fns) j Phase.finished rfl
  refine ⟨⟨⟨rfl, rfl⟩, ?_⟩, ?_, key, ?_⟩
  · intro max s hr
    rw [reach_zero_fixed hr]
    rfl
  · intro fns max s hmax hr hstuck
    by_contra hne
    rcases progress_op hmax (inv_reach hr) (Nat.pos_of_ne_zero hne) with ⟨t, hstep⟩
    exact hstuck t hstep
  · intro fns max s1 s2 hr1 hw1 hr2 hw2 j hj
    rw [key fns max s1 hr1 hw1 j hj, key fns max s2 hr2 hw2 j hj]
    rfl

theorem runSet_invocations_witness :
    invokesOf 0 sOpNilDone.log = [⟨0, EKind.invoke 0⟩]
    ∧ (invokesOf 0 sOpNilDone.log).length + (invokesOf 0 sOpNilDone.log).length = 2 :=
  ⟨runSet_invocations.2.2.1 fnsNil 1 sOpNilDone reach_sOpNilDone (by decide) 0 (by decide),
   runSet_invocations.2.2.2 fnsNil 1 sOpNilDone sOpNilDone reach_sOpNilDone (by decide)
     reach_sOpNilDone (by decide) 0 (by decide)⟩

/-- C7: across any sequence of completed `Acquire`, `AcquireRelease`,
`MaybeAcquire`, and `Release` operations by any number of callers, a
semaphore built by `NewSemaphore` keeps its buffer occupancy within its
capacity: the available-token count stays in `[0, max]`, never negative and
never above `max`. -/
theorem semaphore_invariant (m : Int) (s0 s : Semaphore)
    (hnew : NewSemaphore m = some s0)
    (hr : Relation.ReflTransGen SemStep s0 s) :
    s.n ≤ s.max ∧ s.max = s0.max ∧ 0 ≤ s.avail ∧ s.avail ≤ (s.max : Int) := by
  have h0 : s0.n = 0 := by
    unfold NewSemaphore at hnew
    split at hnew
    · exact absurd hnew (by simp)
    · cases hnew
      rfl
  have key : s.n ≤ s.max ∧ s.max = s0.max := by
    induction hr with
    | refl => exact ⟨by omega, rfl⟩
    | tail hr2 hstep ih =>
      rcases ih with ⟨hle, hmax⟩
      rcases semStep_inv hstep hle with ⟨h1, h2⟩
      exact ⟨h1, by omega⟩
  rcases key with ⟨hle, hmax⟩
  unfold Semaphore.avail
  exact ⟨hle, hmax, by omega, by omega⟩

theorem semaphore_invariant_witness :
    (⟨1, 0⟩ : Semaphore).n ≤ (⟨1, 0⟩ : Semaphore).max
      ∧ (⟨1, 0⟩ : Semaphore).max = (⟨1, 0⟩ : Semaphore).max
      ∧ 0 ≤ (⟨1, 0⟩ : Semaphore).avail
      ∧ (⟨1, 0⟩ : Semaphore).avail ≤ ((⟨1, 0⟩ : Semaphore).max : Int) :=
  semaphore_invariant 1 ⟨1, 0⟩ ⟨1, 0⟩ (by decide) Relation.ReflTransGen.refl

/-- C8: configuration faults.  `NewSemaphore` panics (fails fatally, returning
no semaphore) exactly when `max < 1`, and otherwise returns a semaphore of
that capacity with an empty buffer.  The dispatchers never panic over the cap:
a missing, zero, or negative `maxParallel` silently falls back to the default
`maxproc` (GOMAXPROCS), while a positive one is used as given — so with
`maxproc ≥ 1` the semaphore construction inside `Do` succeeds for any
caller-supplied cap value `≤ 0`. -/
theorem config_faults :
    (∀ m : Int, m < 1 → NewSemaphore m = none)
    ∧ (∀ m : Int, 1 ≤ m → NewSemaphore m = some ⟨m.toNat, 0⟩)
    ∧ (∀ maxproc cap : Int, cap ≤ 0 → effMax maxproc [cap] = maxproc)
    ∧ (∀ maxproc : Int, effMax maxproc [] = maxproc)
    ∧ (∀ cap : Int, 0 < cap → ∀ maxproc : Int, effMax maxproc [cap] = cap)
    ∧ (∀ maxproc cap : Int, 1 ≤ maxproc → cap ≤ 0 →
        NewSemaphore (effMax maxproc [cap]) = some ⟨maxproc.toNat, 0⟩) := by
  refine ⟨?_, ?_, ?_, ?_, ?_, ?_⟩
  · intro m hm
    unfold NewSemaphore
    rw [if_pos hm]
  · intro m hm
    unfold NewSemaphore
    rw [if_neg (by omega)]
  · intro maxproc cap hc
    unfold effMax
    dsimp only
    rw [if_neg (by omega)]
  · intro maxproc
    rfl
  · intro cap hc maxproc
    unfold effMax
    dsimp only
    rw [if_pos hc]
  · intro maxproc cap h1 h2
    unfold effMax NewSemaphore
    dsimp only
    rw [if_neg (show ¬ cap > 0 from by omega)]
    rw [if_neg (show ¬ maxproc < 1 from by omega)]

theorem config_faults_witness :
    NewSemaphore 0 = none
    ∧ NewSemaphore 2 = some ⟨(2 : Int).toNat, 0⟩
    ∧ effMax 4 [-1] = 4
    ∧ effMax 4 [] = 4
    ∧ effMax 4 [2] = 2
    ∧ NewSemaphore (effMax 4 [0]) = some ⟨(4 : Int).toNat, 0⟩ :=
  ⟨config_faults.1 0 (by omega), config_faults.2.1 2 (by omega),
   config_faults.2.2.1 4 (-1) (by omega), config_faults.2.2.2.1 4,
   config_faults.2.2.2.2.1 2 (by omega) 4,
   config_faults.2.2.2.2.2 4 0 (by omega) (by omega)⟩

/-- C9: `MaybeAcquire` never blocks — even when `Acquire` would block it
completes at once with `ok = false`, the original state, and the `noop`
release action.  The returned release action is always safe to invoke: it
always completes and restores the state that held before the `MaybeAcquire`
call (a no-op when no token was obtained, a matching release when one was), so
it can never drive the available-token count below zero or above `max`; and
the state `MaybeAcquire` leaves behind itself stays within capacity. -/
theorem maybeAcquire_safe (s : Semaphore) (hle : s.n ≤ s.max) :
    (s.acquire = none → s.maybeAcquire = (false, s, RelAction.noop))
    ∧ ((s.maybeAcquire).1 = false →
        (s.maybeAcquire).2.2 = RelAction.noop
          ∧ runRel (s.maybeAcquire).2.2 (s.maybeAcquire).2.1
              = some (s.maybeAcquire).2.1)
    ∧ runRel (s.maybeAcquire).2.2 (s.maybeAcquire).2.1 = some s
    ∧ (s.maybeAcquire).2.1.n ≤ (s.maybeAcquire).2.1.max
    ∧ (s.maybeAcquire).2.1.max = s.max := by
  unfold Semaphore.maybeAcquire Semaphore.acquire
  by_cases h : s.n < s.max
  · rw [if_pos h]
    dsimp only
    refine ⟨?_, ?_, ?_, ?_, ?_⟩
    · intro hc
      exact absurd hc (by simp)
    · intro hc
      exact absurd hc (by simp)
    · show (⟨s.max, s.n + 1⟩ : Semaphore).release = some s
      unfold Semaphore.release
      dsimp only
      rw [if_pos (show 0 < s.n + 1 from by omega)]
      rfl
    · show s.n + 1 ≤ s.max
      omega
    · rfl
  · rw [if_neg h]
    dsimp only
    exact ⟨fun _ => rfl, fun _ => ⟨rfl, rfl⟩, rfl, hle, rfl⟩

theorem maybeAcquire_safe_witness :
    runRel ((⟨1, 1⟩ : Semaphore).maybeAcquire).2.2
        ((⟨1, 1⟩ : Semaphore).maybeAcquire).2.1 = some ⟨1, 1⟩
    ∧ (⟨1, 1⟩ : Semaphore).maybeAcquire = (false, ⟨1, 1⟩, RelAction.noop) :=
  ⟨(maybeAcquire_safe ⟨1, 1⟩ (by decide)).2.2.1,
   (maybeAcquire_safe ⟨1, 1⟩ (by decide)).1 (by decide)⟩

/-- C10: calling `Release` when every token is already available (empty
buffer, no matching acquire) never completes — the receive on the empty
channel blocks the caller indefinitely.  Any `Release` that does complete had
a token to take back, so the available-token count stays in `[0, max]` and in
particular can never be driven above `max`. -/
theorem release_unmatched_blocks (s : Semaphore) (hle : s.n ≤ s.max) :
    (s.n = 0 → s.release = none)
    ∧ (∀ t : Semaphore, s.release = some t →
        t.n ≤ t.max ∧ t.max = s.max ∧ 0 ≤ t.avail ∧ t.avail ≤ (t.max : Int)) := by
  constructor
  · intro h0
    unfold Semaphore.release
    rw [if_neg (by omega)]
  · intro t ht
    unfold Semaphore.release at ht
    split at ht
    · cases ht
      unfold Semaphore.avail
      dsimp only
      exact ⟨by omega, rfl, by omega, by omega⟩
    · exact absurd ht (by simp)

theorem release_unmatched_blocks_witness :
    ((⟨3, 0⟩ : Semaphore).release = none)
    ∧ ((⟨3, 1⟩ : Semaphore).n ≤ (⟨3, 1⟩ : Semaphore).max
        ∧ (⟨3, 1⟩ : Semaphore).max = (⟨3, 2⟩ : Semaphore).max
        ∧ 0 ≤ (⟨3, 1⟩ : Semaphore).avail
        ∧ (⟨3, 1⟩ : Semaphore).avail ≤ ((⟨3, 1⟩ : Semaphore).max : Int)) :=
  ⟨(release_unmatched_blocks ⟨3, 0⟩ (by decide)).1 rfl,
   (release_unmatched_blocks ⟨3, 2⟩ (by decide)).2 ⟨3, 1⟩ (by decide)⟩

end Claims

end Parallel
